import Mathlib

/-!
Verification of the URL canonicalizer and reconciler of `sync.py`.

Python strings are modelled as lists of characters (`PyStr`).  The pieces of
the Python standard library that `sanitize_url` relies on — `urllib.parse
.urlparse` / `urlunparse` (CPython 3.11+ string-splitting behaviour) and
`pathlib.PurePosixPath.parts` — are embedded as executable functions on
`PyStr`.  Validation steps of `urlsplit` that can only raise (`the bracketed
IPv6 host check and the NFKC netloc check, which need the ipaddress and
unicodedata modules`) are outside the model: the embedding parses every
input, matching CPython on all inputs that do not raise.
-/

set_option maxRecDepth 10000
set_option maxHeartbeats 1000000

/-- Python strings as lists of characters. -/
abbrev PyStr := List Char

/-- Unwanted path segments: the set `UNWANTED_URL_PATH_PARTS` of sync.py. -/
def UNWANTED_URL_PATH_PARTS : List PyStr :=
  ["atom".toList, "feed".toList, "index.html".toList, "index.php".toList,
   "index.php5".toList, "rss".toList, "rss.xml".toList]

/-- Characters allowed in a URL scheme (`scheme_chars` of urllib.parse). -/
def schemeChars : PyStr :=
  "abcdefghijklmnopqrstuvwxyzABCDEFGHIJKLMNOPQRSTUVWXYZ0123456789+-.".toList

/-- Test for membership in `schemeChars`. -/
def isSchemeChar (c : Char) : Bool := decide (c ∈ schemeChars)

/-- The ASCII letters: characters with `c.isascii() and c.isalpha()` in Python. -/
def asciiAlpha : PyStr :=
  "abcdefghijklmnopqrstuvwxyzABCDEFGHIJKLMNOPQRSTUVWXYZ".toList

/-- Test for an ASCII letter, as CPython urlsplit tests `url[0]`. -/
def isAsciiAlpha (c : Char) : Bool := decide (c ∈ asciiAlpha)

/-- Python `str.lower` on one character, on the ASCII range (urlsplit only
lowercases a validated scheme, which is all-ASCII). -/
def pyLowerChar (c : Char) : Char :=
  if 'A' ≤ c ∧ c ≤ 'Z' then Char.ofNat (c.toNat + 32) else c

/-- Characters stripped from the front of a URL by urlsplit
(`_WHATWG_C0_CONTROL_OR_SPACE`): C0 controls and the space. -/
def isC0OrSpace (c : Char) : Bool := decide (c.toNat ≤ 32)

/-- Characters removed everywhere by urlsplit (`_UNSAFE_URL_BYTES_TO_REMOVE`). -/
def isUnsafeByte (c : Char) : Bool := c == '\t' || c == '\r' || c == '\n'

/-- Python `s.split(sep, 1)` used by urlsplit for `#` and `?`: when `c` occurs
in `s`, the pair of the part before the first `c` and the part after it;
otherwise `(s, "")`. -/
def splitOnceAt (c : Char) (s : PyStr) : PyStr × PyStr :=
  if c ∈ s then (s.takeWhile (fun x => x != c), (s.dropWhile (fun x => x != c)).tail)
  else (s, [])

/-- Delimiters ending the netloc in `_splitnetloc`. -/
def netlocEnd (c : Char) : Bool := c == '/' || c == '?' || c == '#'

/-- The `_splitnetloc` helper of urllib.parse: split at the first of
`/`, `?`, `#` (the caller has already dropped the leading `//`). -/
def splitnetloc (s : PyStr) : PyStr × PyStr :=
  (s.takeWhile (fun c => !netlocEnd c), s.dropWhile (fun c => !netlocEnd c))

/-- Scheme detection of urlsplit (CPython 3.11+): a scheme is split off when
the first `:` is preceded only by scheme characters and the first character
is an ASCII letter; the scheme is lowercased. -/
def schemeSplit (s : PyStr) : PyStr × PyStr :=
  match s with
  | [] => ([], [])
  | c :: rest =>
    let pre := (c :: rest).takeWhile (fun x => x != ':')
    if isAsciiAlpha c && decide (':' ∈ (c :: rest)) && pre.all isSchemeChar then
      (pre.map pyLowerChar, ((c :: rest).dropWhile (fun x => x != ':')).tail)
    else ([], s)

/-- Result of urlparse: the six URL components. -/
structure UrlParts where
  scheme : PyStr
  netloc : PyStr
  path : PyStr
  params : PyStr
  query : PyStr
  fragment : PyStr
deriving Repr, DecidableEq

/-- The urlsplit function of urllib.parse: strip leading C0/space characters,
remove tab/CR/LF, split off scheme, netloc, fragment and query, in that
order.  The `params` field is left empty; `pyUrlparse` fills it. -/
def pyUrlsplit (url0 : PyStr) : UrlParts :=
  let url1 := url0.dropWhile isC0OrSpace
  let url2 := url1.filter (fun c => !isUnsafeByte c)
  let sr := schemeSplit url2
  let nr := if sr.2.take 2 = ['/', '/'] then splitnetloc (sr.2.drop 2) else ([], sr.2)
  let fr := splitOnceAt '#' nr.2
  let qr := splitOnceAt '?' fr.1
  ⟨sr.1, nr.1, qr.1, [], qr.2, fr.2⟩

/-- Schemes for which urlparse splits params (`uses_params` of urllib.parse). -/
def usesParams : List PyStr :=
  ["".toList, "ftp".toList, "hdl".toList, "prospero".toList, "http".toList,
   "imap".toList, "https".toList, "shttp".toList, "rtsp".toList, "rtspu".toList,
   "sip".toList, "sips".toList, "mms".toList, "sftp".toList, "tel".toList]

/-- The `_splitparams` helper of urllib.parse: split at the first `;` occurring
in the last path segment (after the last `/`). -/
def splitparams (s : PyStr) : PyStr × PyStr :=
  if '/' ∈ s then
    let b := (s.reverse.takeWhile (fun c => c != '/')).reverse
    let a := (s.reverse.dropWhile (fun c => c != '/')).reverse
    if ';' ∈ b then
      (a ++ b.takeWhile (fun c => c != ';'), (b.dropWhile (fun c => c != ';')).tail)
    else (s, [])
  else if ';' ∈ s then (s.takeWhile (fun c => c != ';'), (s.dropWhile (fun c => c != ';')).tail)
  else (s, [])

/-- The urlparse function of urllib.parse: urlsplit plus params splitting for
the schemes in `usesParams`. -/
def pyUrlparse (url : PyStr) : UrlParts :=
  let r := pyUrlsplit url
  if r.scheme ∈ usesParams ∧ ';' ∈ r.path then
    let pp := splitparams r.path
    { r with path := pp.1, params := pp.2 }
  else r

/-- Split a string at every `/` (keeping empty pieces). -/
def splitSlash : PyStr → List PyStr
  | [] => [[]]
  | c :: rest =>
    let r := splitSlash rest
    if c = '/' then [] :: r
    else
      match r with
      | s :: ss => (c :: s) :: ss
      | [] => [[c]]

/-- Segments kept by `pathlib`: non-empty and not the lone dot. -/
def isNormalSeg (s : PyStr) : Bool := decide (s ≠ [] ∧ s ≠ ['.'])

/-- Non-root entries of `pathlib.PurePosixPath(p).parts`: the slash-separated
pieces, with empty pieces and `.` pieces dropped. -/
def rawSegs (p : PyStr) : List PyStr := (splitSlash p).filter isNormalSeg

/-- Root entry of `pathlib.PurePosixPath(p).parts`: `//` when the path starts
with exactly two slashes, `/` when it starts with a slash, nothing otherwise. -/
def pathRoot (p : PyStr) : List PyStr :=
  if p.take 2 = ['/', '/'] ∧ p.take 3 ≠ ['/', '/', '/'] then [['/', '/']]
  else if p.take 1 = ['/'] then [['/']]
  else []

/-- The tuple `pathlib.PurePosixPath(p).parts` as a list. -/
def pyPathParts (p : PyStr) : List PyStr := pathRoot p ++ rawSegs p

/-- Net effect of Python `while x in path: path.remove(x)`: every occurrence
of `x` is removed, other elements stay in place. -/
def pyRemoveAll (x : PyStr) (l : List PyStr) : List PyStr := l.filter (fun s => s != x)

/-- The removal loop of `sanitize_url`: remove all occurrences of every
unwanted segment. -/
def removeUnwanted (l : List PyStr) : List PyStr :=
  UNWANTED_URL_PATH_PARTS.foldl (fun acc u => pyRemoveAll u acc) l

/-- Python `"/".join(l)`: the pieces of `l` interleaved with single slashes. -/
def joinSlash : List PyStr → PyStr
  | [] => []
  | [s] => s
  | s :: t :: rest => s ++ '/' :: joinSlash (t :: rest)

/-- Python `s.strip("/")`: drop leading and trailing slashes. -/
def pyStripSlashes (s : PyStr) : PyStr :=
  ((s.dropWhile (fun c => c == '/')).reverse.dropWhile (fun c => c == '/')).reverse

/-- The canonical path computed by `sanitize_url` before the `or "/"` default:
path parts, minus unwanted segments, joined with `/` and slash-stripped. -/
def canonPath (p : PyStr) : PyStr :=
  pyStripSlashes (joinSlash (removeUnwanted (pyPathParts p)))

/-- The replacement query of `sanitize_url`: `mode=links&do=rss` for a path
ending in `rss.php` (BlogoText / oText), `do=rss` otherwise. -/
def canonQuery (p2 : PyStr) : PyStr :=
  if ("rss.php".toList).isSuffixOf p2 then "mode=links&do=rss".toList else "do=rss".toList

/-- The urlunsplit function of urllib.parse. -/
def pyUrlunsplit (scheme netloc url query fragment : PyStr) : PyStr :=
  let u1 :=
    if netloc ≠ [] ∨ (url ≠ [] ∧ url.take 2 = ['/', '/']) then
      let u := if url ≠ [] ∧ url.take 1 ≠ ['/'] then '/' :: url else url
      ['/', '/'] ++ netloc ++ u
    else url
  let u2 := if scheme ≠ [] then scheme ++ ':' :: u1 else u1
  let u3 := if query ≠ [] then u2 ++ '?' :: query else u2
  if fragment ≠ [] then u3 ++ '#' :: fragment else u3

/-- The urlunparse function of urllib.parse: re-attach params, then unsplit. -/
def pyUrlunparse (p : UrlParts) : PyStr :=
  let u := if p.params ≠ [] then p.path ++ ';' :: p.params else p.path
  pyUrlunsplit p.scheme p.netloc u p.query p.fragment

/-- The `sanitize_url` function of sync.py. -/
def sanitize_url (url : PyStr) : PyStr :=
  if url = [] then [] else
    let parts := pyUrlparse url
    let p2 := canonPath parts.path
    let q := canonQuery p2
    pyUrlunparse { parts with path := if p2 = [] then ['/'] else p2, query := q }

/-- Leftmost non-overlapping replacement scan of Python `str.replace`, for a
non-empty pattern.  The extra `Nat` is fuel bounding the number of steps so
the recursion is structural; the caller passes the string length, which is
never exhausted since every step consumes at least one character. -/
def pyReplaceAux (pat sub : PyStr) : Nat → PyStr → PyStr
  | 0, _ => []
  | _ + 1, [] => []
  | n + 1, c :: rest =>
    if pat.isPrefixOf (c :: rest) then
      sub ++ pyReplaceAux pat sub n (rest.drop (pat.length - 1))
    else c :: pyReplaceAux pat sub n rest

/-- Python `s.replace(pat, sub)`: replace every non-overlapping occurrence,
left to right; an empty pattern inserts `sub` around every character. -/
def pyReplace (s pat sub : PyStr) : PyStr :=
  if pat = [] then sub ++ (s.map (fun c => c :: sub)).flatten
  else pyReplaceAux pat sub s.length s

/-- The first scheme-swap of main: `feed_url.replace("http:", "https:")`. -/
def swapToHttps (u : PyStr) : PyStr := pyReplace u ("http:".toList) ("https:".toList)

/-- The second scheme-swap of main: `feed_url.replace("https:", "http:")`. -/
def swapToHttp (u : PyStr) : PyStr := pyReplace u ("https:".toList) ("http:".toList)

/-- The print condition of the loop in main: the candidate is truthy and
neither scheme-swapped variant is in the current feeds. -/
def keepFeed (current : List PyStr) (u : PyStr) : Bool :=
  decide (u ≠ []) && !(decide (swapToHttps u ∈ current)) && !(decide (swapToHttp u ∈ current))

/-- The printing loop of main over the iteration order of `diff`: the list of
printed URLs together with the final counter `new`. -/
def mainLoop (current : List PyStr) : List PyStr → List PyStr × Nat
  | [] => ([], 0)
  | u :: rest =>
    let r := mainLoop current rest
    if keepFeed current u then (u :: r.1, r.2 + 1) else r

/-- A Python set of strings, modelled as a deduplicated list. -/
def pySet (l : List PyStr) : List PyStr := l.dedup

/-- The main function of sync.py from the point where all raw URL lists are in
hand: canonicalize each list into a set, take the difference, and run the
printing loop. -/
def mainModel (currentRaw badRaw manualRaw : List PyStr) (discovered : List (List PyStr)) :
    List PyStr × Nat :=
  let current := pySet (currentRaw.map sanitize_url)
  let bad := pySet (badRaw.map sanitize_url)
  let newFeeds := pySet ((manualRaw.map sanitize_url) ++ ((discovered.flatten).map sanitize_url))
  let diff := newFeeds.filter (fun u => decide (¬ u ∈ current ∧ ¬ u ∈ bad))
  mainLoop current diff

/-- The two remote formats handled by `get_dynamic_feeds`. -/
inductive FeedKind
  | json
  | opml
deriving DecidableEq

/-- Outcome of `urlopen(url).read()`: either a complete payload or an
`http.client.IncompleteRead` carrying the bytes received before truncation. -/
inductive ReadOutcome
  | complete (data : PyStr)
  | incompleteRead (received : PyStr)
deriving DecidableEq

/-- The try/except of `get_dynamic_feeds`: a complete read yields its data and
an incomplete read is caught, yielding `exc.partial`. -/
def readData : ReadOutcome → PyStr
  | .complete d => d
  | .incompleteRead d => d

/-- Python `re.findall(r'xmlUrl="([^"]+)"', s)`: every non-overlapping match
of the pattern, as the list of captured groups. -/
def opmlFindall (s : PyStr) : List PyStr :=
  match s with
  | [] => []
  | c :: rest =>
    if ("xmlUrl=\"".toList).isPrefixOf (c :: rest) then
      let after := rest.drop 7
      let cap := after.takeWhile (fun x => x != '"')
      if cap ≠ [] ∧ '"' ∈ after then
        cap :: opmlFindall ((after.dropWhile (fun x => x != '"')).tail)
      else opmlFindall rest
    else opmlFindall rest
termination_by s.length
decreasing_by
  · have h1 : ((rest.drop 7).dropWhile (fun x => x != '"')).length ≤ rest.length := by
      calc ((rest.drop 7).dropWhile (fun x => x != '"')).length
          ≤ (rest.drop 7).length := (List.dropWhile_sublist _).length_le
        _ ≤ rest.length := by simp [List.length_drop]
    have h2 := (List.tail_sublist (((rest.drop 7).dropWhile (fun x => x != '"')))).length_le
    simp only [List.length_cons]
    omega
  · simp only [List.length_cons]
    omega
  · simp only [List.length_cons]
    omega

/-- The `get_dynamic_feeds` function of sync.py.  The payload parser of the
json branch (`json.loads` plus extraction of every `url` field) is Python
standard library machinery taken as a parameter: it returns the list of url
fields, or `none` when the payload is structurally invalid and `json.loads`
raises; a `none` result of `getDynamicFeeds` models that propagated error. -/
def getDynamicFeeds (jsonLoads : PyStr → Option (List PyStr)) (kind : FeedKind)
    (r : ReadOutcome) : Option (List PyStr) :=
  let data := readData r
  match kind with
  | .json => (jsonLoads data).map (fun urls => pySet (urls.map sanitize_url))
  | .opml => some (pySet ((opmlFindall data).map sanitize_url))

/-- The hexadecimal digits accepted inside a percent-escape (RFC 3986
`pct-encoded`). -/
def hexDigits : PyStr := "0123456789abcdefABCDEF".toList

/-- Test for a hexadecimal digit. -/
def isHexDigit (c : Char) : Bool := decide (c ∈ hexDigits)

/-- The RFC 3986 URI character set: unreserved characters (letters, digits,
`-._~`), gen-delims (`:/?#[]@`), sub-delims (`!$&()*+,;=` and the apostrophe,
appended as `Char.ofNat 39`), and the percent sign. -/
def uriChars : PyStr :=
  ("abcdefghijklmnopqrstuvwxyzABCDEFGHIJKLMNOPQRSTUVWXYZ0123456789"
    ++ "-._~:/?#[]@!$&()*+,;=%").toList ++ [Char.ofNat 39]

/-- Test for membership in the RFC 3986 URI character set. -/
def isUriChar (c : Char) : Bool := decide (c ∈ uriChars)

/-- Well-formedness of percent-escapes (RFC 3986 `pct-encoded`): every `%`
begins a `%XX` escape with two hexadecimal digits. -/
def percentOkB : PyStr → Bool
  | [] => true
  | c :: rest =>
    if c = '%' then
      match rest with
      | h1 :: h2 :: rest2 => isHexDigit h1 && isHexDigit h2 && percentOkB rest2
      | _ => false
    else percentOkB rest

/-- Modelled from the spec: a "syntactically valid absolute URL" is a string
starting with an RFC 3986 scheme — an ASCII letter followed by scheme
characters — terminated by the first colon, in which every character belongs
to the RFC 3986 URI character set (unreserved, gen-delims, sub-delims, `%`)
and every `%` begins a well-formed two-hex-digit escape.  (The per-component
placement rules of the full RFC 3986 grammar are not modelled.) -/
def specAbsoluteUrl (s : PyStr) : Bool :=
  match s with
  | [] => false
  | c :: _ =>
    isAsciiAlpha c && decide (':' ∈ s) && (s.takeWhile (fun x => x != ':')).all isSchemeChar
      && s.all isUriChar && percentOkB s

/-- Characterization of the canonical path segments: the input path segments
with every unwanted one removed (proved equal to the removal-loop pipeline). -/
def canonSegs (p : PyStr) : List PyStr :=
  (rawSegs p).filter (fun s => decide (¬ s ∈ UNWANTED_URL_PATH_PARTS))

/-- Shape invariant of a scheme produced by `schemeSplit`: scheme characters
only, already lowercased, and an ASCII letter first. -/
def SchemeOK (S : PyStr) : Prop :=
  (∀ c ∈ S, c ∈ schemeChars) ∧ S.map pyLowerChar = S ∧
    ∀ c, S.head? = some c → c ∈ asciiAlpha

example : sanitize_url ("https://example.org/?do=atom".toList)
    = ("https://example.org/?do=rss".toList) := by decide
example : sanitize_url ("https://example.org/feed/atom".toList)
    = ("https://example.org/?do=rss".toList) := by decide
example : sanitize_url ("https://example.org/shaarli/?do=rss".toList)
    = ("https://example.org/shaarli?do=rss".toList) := by decide
example : sanitize_url ("https://example.org/shaarli/feed/rss?do=atom".toList)
    = ("https://example.org/shaarli?do=rss".toList) := by decide
example : sanitize_url ("https://example.org/rss.php?mode=links&do=rss".toList)
    = ("https://example.org/rss.php?mode=links&do=rss".toList) := by decide
example : sanitize_url [] = [] := by decide
example : sanitize_url ("https://example.org//?do=rss".toList)
    = ("https://example.org/?do=rss".toList) := by decide
example : sanitize_url ("https://example.org//feed?do=rss".toList)
    = ("https://example.org/?do=rss".toList) := by decide
example : sanitize_url ("https://example.org/?do=rss?".toList)
    = ("https://example.org/?do=rss".toList) := by decide
example : sanitize_url ("https://example.org/index.php?do=rss&".toList)
    = ("https://example.org/?do=rss".toList) := by decide
example : sanitize_url ("https://example.org/index.php5?do=rss".toList)
    = ("https://example.org/?do=rss".toList) := by decide
example : sanitize_url ("https://example.org/rss.xml".toList)
    = ("https://example.org/?do=rss".toList) := by decide
example : sanitize_url ("https://example.org/?kw=computer%20services".toList)
    = ("https://example.org/?do=rss".toList) := by decide
example : sanitize_url ("https://example.org/carnet.atom".toList)
    = ("https://example.org/carnet.atom?do=rss".toList) := by decide

/-! ### Generic list helpers -/

lemma takeWhile_append_all {p : Char → Bool} {a : PyStr} (b : PyStr)
    (h : ∀ x ∈ a, p x = true) : (a ++ b).takeWhile p = a ++ b.takeWhile p := by
  induction a with
  | nil => simp
  | cons c a ih =>
    have hc : p c = true := h c (by simp)
    simp only [List.cons_append, List.takeWhile_cons, hc, if_true]
    rw [ih (fun x hx => h x (by simp [hx]))]

lemma dropWhile_append_all {p : Char → Bool} {a : PyStr} (b : PyStr)
    (h : ∀ x ∈ a, p x = true) : (a ++ b).dropWhile p = b.dropWhile p := by
  induction a with
  | nil => simp
  | cons c a ih =>
    have hc : p c = true := h c (by simp)
    simp only [List.cons_append, List.dropWhile_cons, hc, if_true]
    exact ih (fun x hx => h x (by simp [hx]))

lemma takeWhile_append_stop {p : Char → Bool} {a : PyStr} {c : Char} (b : PyStr)
    (h : ∀ x ∈ a, p x = true) (hc : p c = false) :
    (a ++ c :: b).takeWhile p = a := by
  rw [takeWhile_append_all _ h, List.takeWhile_cons, hc]
  simp

lemma dropWhile_append_stop {p : Char → Bool} {a : PyStr} {c : Char} (b : PyStr)
    (h : ∀ x ∈ a, p x = true) (hc : p c = false) :
    (a ++ c :: b).dropWhile p = c :: b := by
  rw [dropWhile_append_all _ h, List.dropWhile_cons, hc]
  simp

lemma dropWhile_eq_self_of_head {p : Char → Bool} {s : PyStr}
    (h : ∀ c, s.head? = some c → p c = false) : s.dropWhile p = s := by
  cases s with
  | nil => rfl
  | cons c t => rw [List.dropWhile_cons, h c rfl]; simp

/-! ### splitOnceAt -/

lemma splitOnceAt_not_mem {c : Char} {s : PyStr} (h : ¬ c ∈ s) :
    splitOnceAt c s = (s, []) := by
  rw [splitOnceAt, if_neg h]

lemma splitOnceAt_append {c : Char} {a : PyStr} (b : PyStr) (h : ¬ c ∈ a) :
    splitOnceAt c (a ++ c :: b) = (a, b) := by
  have hmem : c ∈ a ++ c :: b := by simp
  rw [splitOnceAt, if_pos hmem]
  have hall : ∀ x ∈ a, (x != c) = true := fun x hx => bne_iff_ne.mpr (fun he => h (he ▸ hx))
  have hcc : ((c : Char) != c) = false := bne_self_eq_false c
  rw [takeWhile_append_stop b hall hcc, dropWhile_append_stop b hall hcc]
  simp

/-! ### splitSlash, rawSegs, joinSlash, pyStripSlashes -/

lemma splitSlash_ne_nil (p : PyStr) : splitSlash p ≠ [] := by
  induction p with
  | nil => simp [splitSlash]
  | cons c rest ih =>
    rw [splitSlash]
    split
    · simp
    · cases h : splitSlash rest with
      | nil => exact absurd h ih
      | cons s ss => simp [h]

lemma splitSlash_cons_slash (p : PyStr) : splitSlash ('/' :: p) = [] :: splitSlash p := by
  rw [splitSlash]
  simp

lemma splitSlash_cons_ne {c : Char} (p : PyStr) (hc : c ≠ '/') :
    ∀ h t, splitSlash p = h :: t → splitSlash (c :: p) = (c :: h) :: t := by
  intro h t he
  rw [splitSlash]
  simp only [hc, if_false, he]

lemma mem_splitSlash_chars {p : PyStr} {s : PyStr} (hs : s ∈ splitSlash p) :
    ∀ c ∈ s, c ∈ p ∧ c ≠ '/' := by
  induction p generalizing s with
  | nil =>
    simp [splitSlash] at hs
    simp [hs]
  | cons c rest ih =>
    by_cases hc : c = '/'
    · subst hc
      rw [splitSlash_cons_slash] at hs
      rcases List.mem_cons.mp hs with hs | hs
      · simp [hs]
      · intro x hx
        rcases ih hs x hx with ⟨h1, h2⟩
        exact ⟨by simp [h1], h2⟩
    · cases hr : splitSlash rest with
      | nil => exact absurd hr (splitSlash_ne_nil rest)
      | cons s0 ss =>
        rw [splitSlash_cons_ne rest hc s0 ss hr] at hs
        rcases List.mem_cons.mp hs with hs | hs
        · subst hs
          intro x hx
          rcases List.mem_cons.mp hx with hx | hx
          · subst hx
            exact ⟨by simp, hc⟩
          · rcases ih (by rw [hr]; exact List.mem_cons_self s0 ss) x hx with ⟨h1, h2⟩
            exact ⟨by simp [h1], h2⟩
        · intro x hx
          rcases ih (by rw [hr]; exact List.mem_cons_of_mem s0 hs) x hx with ⟨h1, h2⟩
          exact ⟨by simp [h1], h2⟩

lemma splitSlash_no_slash {s : PyStr} (h : ¬ '/' ∈ s) : splitSlash s = [s] := by
  induction s with
  | nil => rfl
  | cons c rest ih =>
    have hc : c ≠ '/' := fun he => h (by simp [he])
    have hr : splitSlash rest = [rest] := ih (fun hm => h (by simp [hm]))
    rw [splitSlash_cons_ne rest hc rest [] hr]

lemma splitSlash_append {a z : PyStr} (ha : ¬ '/' ∈ a) {h : PyStr} {t : List PyStr}
    (hz : splitSlash z = h :: t) : splitSlash (a ++ z) = (a ++ h) :: t := by
  induction a with
  | nil => simpa using hz
  | cons c a ih =>
    have hc : c ≠ '/' := fun he => ha (by simp [he])
    have ih' := ih (fun hm => ha (by simp [hm]))
    have := splitSlash_cons_ne (a ++ z) hc (a ++ h) t ih'
    simpa using this

lemma splitSlash_joinSlash {l : List PyStr} (hl : l ≠ [])
    (h : ∀ s ∈ l, ¬ '/' ∈ s) : splitSlash (joinSlash l) = l := by
  induction l with
  | nil => exact absurd rfl hl
  | cons s t ih =>
    cases t with
    | nil => exact splitSlash_no_slash (h s (by simp))
    | cons u rest =>
      have hj : splitSlash (joinSlash (u :: rest)) = u :: rest :=
        ih (by simp) (fun x hx => h x (List.mem_cons_of_mem s hx))
      have hstep : splitSlash ('/' :: joinSlash (u :: rest)) = [] :: u :: rest := by
        rw [splitSlash_cons_slash, hj]
      rw [joinSlash, splitSlash_append (h s (by simp)) hstep]
      simp

/-! ### rawSegs and removeUnwanted -/

lemma mem_rawSegs {p s : PyStr} (hs : s ∈ rawSegs p) :
    (s ≠ [] ∧ s ≠ ['.']) ∧ ∀ c ∈ s, c ∈ p ∧ c ≠ '/' := by
  rcases List.mem_filter.mp hs with ⟨h1, h2⟩
  exact ⟨by simpa [isNormalSeg] using h2, mem_splitSlash_chars h1⟩

lemma rawSegs_cons_slash (p : PyStr) : rawSegs ('/' :: p) = rawSegs p := by
  rw [rawSegs, splitSlash_cons_slash]
  simp [isNormalSeg, rawSegs]

lemma rawSegs_joinSlash {l : List PyStr}
    (h : ∀ s ∈ l, isNormalSeg s = true ∧ ¬ '/' ∈ s) : rawSegs (joinSlash l) = l := by
  cases l with
  | nil => simp [joinSlash, rawSegs, splitSlash, isNormalSeg]
  | cons s t =>
    rw [rawSegs, splitSlash_joinSlash (by simp) (fun x hx => (h x hx).2)]
    exact List.filter_eq_self.mpr (fun x hx => (h x hx).1)

lemma removeUnwanted_eq_filter (l : List PyStr) :
    removeUnwanted l = l.filter (fun s => decide (¬ s ∈ UNWANTED_URL_PATH_PARTS)) := by
  rw [removeUnwanted]
  generalize UNWANTED_URL_PATH_PARTS = us
  induction us generalizing l with
  | nil => simp
  | cons u us ih =>
    rw [List.foldl_cons, ih]
    rw [pyRemoveAll, List.filter_filter]
    refine List.filter_congr (fun x _ => ?_)
    by_cases h1 : x ∈ us <;> by_cases h2 : x = u <;>
      simp [h1, h2, bne_iff_ne]

/-! ### joinSlash and pyStripSlashes -/

lemma mem_joinSlash {l : List PyStr} {c : Char} (hc : c ∈ joinSlash l) :
    c = '/' ∨ ∃ s ∈ l, c ∈ s := by
  induction l with
  | nil => simp [joinSlash] at hc
  | cons s t ih =>
    cases t with
    | nil =>
      right
      exact ⟨s, by simp, hc⟩
    | cons u rest =>
      rw [joinSlash] at hc
      rcases List.mem_append.mp hc with h | h
      · right
        exact ⟨s, by simp, h⟩
      · rcases List.mem_cons.mp h with h | h
        · exact Or.inl h
        · rcases ih h with h' | ⟨x, hx1, hx2⟩
          · exact Or.inl h'
          · exact Or.inr ⟨x, List.mem_cons_of_mem s hx1, hx2⟩

lemma joinSlash_ne_nil {l : List PyStr} (hl : l ≠ []) (h : ∀ s ∈ l, s ≠ []) :
    joinSlash l ≠ [] := by
  cases l with
  | nil => exact absurd rfl hl
  | cons s t =>
    cases t with
    | nil => exact h s (by simp)
    | cons u rest =>
      rw [joinSlash]
      cases hs : s with
      | nil => exact absurd hs (h s (by simp))
      | cons c cs => simp

lemma joinSlash_head {l : List PyStr} (h : ∀ s ∈ l, s ≠ [] ∧ ¬ '/' ∈ s) :
    (joinSlash l).head? ≠ some '/' := by
  cases l with
  | nil => simp [joinSlash]
  | cons s t =>
    have hs := h s (by simp)
    obtain ⟨c, cs, rfl⟩ : ∃ c cs, s = c :: cs := by
      cases s with
      | nil => exact absurd rfl hs.1
      | cons c cs => exact ⟨c, cs, rfl⟩
    have hcs : c ≠ '/' := fun he => hs.2 (by simp [he])
    cases t with
    | nil => simpa [joinSlash] using hcs
    | cons u rest => simpa [joinSlash] using hcs

lemma joinSlash_getLast {l : List PyStr} (h : ∀ s ∈ l, s ≠ [] ∧ ¬ '/' ∈ s) :
    (joinSlash l).getLast? ≠ some '/' := by
  induction l with
  | nil => simp [joinSlash]
  | cons s t ih =>
    cases t with
    | nil =>
      rw [joinSlash]
      intro he
      have hmem : '/' ∈ s := by
        have := List.mem_of_mem_head? (l := s.reverse) (a := '/')
        rw [List.head?_reverse] at this
        simpa using this (by simp [he])
      exact (h s (by simp)).2 hmem
    | cons u rest =>
      rw [joinSlash]
      have ht : joinSlash (u :: rest) ≠ [] :=
        joinSlash_ne_nil (by simp) (fun x hx => (h x (List.mem_cons_of_mem s hx)).1)
      rw [List.getLast?_append]
      have ih' := ih (fun x hx => h x (List.mem_cons_of_mem s hx))
      cases hj : (joinSlash (u :: rest)).getLast? with
      | none =>
        rw [List.getLast?_eq_none_iff] at hj
        exact absurd hj ht
      | some d =>
        rw [hj] at ih'
        simp only [List.getLast?_cons, hj]
        simpa using ih'

lemma stripSlashes_eq_self {s : PyStr} (h1 : s.head? ≠ some '/')
    (h2 : s.getLast? ≠ some '/') : pyStripSlashes s = s := by
  rw [pyStripSlashes]
  have e1 : s.dropWhile (fun c => c == '/') = s := by
    apply dropWhile_eq_self_of_head
    intro c hc
    have : c ≠ '/' := fun he => h1 (he ▸ hc)
    simpa using this
  rw [e1]
  have e2 : s.reverse.dropWhile (fun c => c == '/') = s.reverse := by
    apply dropWhile_eq_self_of_head
    intro c hc
    rw [List.head?_reverse] at hc
    have : c ≠ '/' := fun he => h2 (he ▸ hc)
    simpa using this
  rw [e2, List.reverse_reverse]

lemma strip_cons_slash (s : PyStr) : pyStripSlashes ('/' :: s) = pyStripSlashes s := by
  rw [pyStripSlashes, pyStripSlashes, List.dropWhile_cons]
  simp

lemma stripJoin_root {r : List PyStr} (hr : r = [] ∨ r = [['/']] ∨ r = [['/', '/']])
    {l : List PyStr} (h : ∀ s ∈ l, s ≠ [] ∧ ¬ '/' ∈ s) :
    pyStripSlashes (joinSlash (r ++ l)) = joinSlash l := by
  have base : pyStripSlashes (joinSlash l) = joinSlash l :=
    stripSlashes_eq_self (joinSlash_head h) (joinSlash_getLast h)
  rcases hr with rfl | rfl | rfl
  · simpa using base
  · cases l with
    | nil => decide
    | cons s t =>
      have : joinSlash (['/'] :: s :: t) = '/' :: '/' :: joinSlash (s :: t) := by
        simp [joinSlash]
      rw [List.singleton_append, this, strip_cons_slash, strip_cons_slash]
      exact base
  · cases l with
    | nil => decide
    | cons s t =>
      have : joinSlash (['/', '/'] :: s :: t) = '/' :: '/' :: '/' :: joinSlash (s :: t) := by
        simp [joinSlash]
      rw [List.singleton_append, this, strip_cons_slash, strip_cons_slash, strip_cons_slash]
      exact base

/-! ### canonPath characterization -/

lemma mem_canonSegs {p s : PyStr} (hs : s ∈ canonSegs p) :
    (s ≠ [] ∧ s ≠ ['.']) ∧ (∀ c ∈ s, c ∈ p ∧ c ≠ '/') ∧ ¬ s ∈ UNWANTED_URL_PATH_PARTS := by
  rcases List.mem_filter.mp hs with ⟨h1, h2⟩
  rcases mem_rawSegs h1 with ⟨ha, hb⟩
  exact ⟨ha, hb, by simpa using h2⟩

lemma canonSegs_clean {p : PyStr} : ∀ s ∈ canonSegs p, s ≠ [] ∧ ¬ '/' ∈ s :=
  fun _ hs => ⟨(mem_canonSegs hs).1.1, fun hm => ((mem_canonSegs hs).2.1 '/' hm).2 rfl⟩

lemma pathRoot_cases (p : PyStr) :
    pathRoot p = [] ∨ pathRoot p = [['/']] ∨ pathRoot p = [['/', '/']] := by
  rw [pathRoot]
  split_ifs <;> simp

lemma removeUnwanted_pathParts (p : PyStr) :
    removeUnwanted (pyPathParts p) = pathRoot p ++ canonSegs p := by
  rw [pyPathParts, removeUnwanted_eq_filter, List.filter_append]
  congr 1
  rcases pathRoot_cases p with h | h | h <;> rw [h] <;> decide

lemma canonPath_eq (p : PyStr) : canonPath p = joinSlash (canonSegs p) := by
  rw [canonPath, removeUnwanted_pathParts]
  exact stripJoin_root (pathRoot_cases p) canonSegs_clean

lemma rawSegs_canonPath (p : PyStr) : rawSegs (canonPath p) = canonSegs p := by
  rw [canonPath_eq]
  apply rawSegs_joinSlash
  intro s hs
  rcases mem_canonSegs hs with ⟨⟨ha1, ha2⟩, hb, _⟩
  exact ⟨by simp [isNormalSeg, ha1, ha2], fun hm => (hb '/' hm).2 rfl⟩

lemma canonPath_head (p : PyStr) : (canonPath p).head? ≠ some '/' := by
  rw [canonPath_eq]
  exact joinSlash_head canonSegs_clean

lemma canonPath_getLast (p : PyStr) : (canonPath p).getLast? ≠ some '/' := by
  rw [canonPath_eq]
  exact joinSlash_getLast canonSegs_clean

lemma canonPath_take_one (p : PyStr) : (canonPath p).take 1 ≠ ['/'] := by
  cases h : canonPath p with
  | nil => simp
  | cons c cs =>
    have : c ≠ '/' := by
      have := canonPath_head p
      rw [h] at this
      simpa using this
    simpa using this

lemma mem_canonPath_chars {p : PyStr} {c : Char} (hc : c ∈ canonPath p) :
    c = '/' ∨ (c ∈ p ∧ c ≠ '/') := by
  rw [canonPath_eq] at hc
  rcases mem_joinSlash hc with h | ⟨s, hs1, hs2⟩
  · exact Or.inl h
  · exact Or.inr ((mem_canonSegs hs1).2.1 c hs2)

lemma canonSegs_slash_canonPath (p : PyStr) : canonSegs ('/' :: canonPath p) = canonSegs p := by
  rw [canonSegs, rawSegs_cons_slash, rawSegs_canonPath]
  apply List.filter_eq_self.mpr
  intro s hs
  simpa using (mem_canonSegs hs).2.2

lemma pathRoot_slash_canonPath (p : PyStr) : pathRoot ('/' :: canonPath p) = [['/']] := by
  cases hq : canonPath p with
  | nil => decide
  | cons c cs =>
    have hc : c ≠ '/' := by
      have := canonPath_head p
      rw [hq] at this
      simpa using this
    rw [pathRoot, if_neg, if_pos (by simp)]
    intro hand
    have h1 := hand.1
    simp only [List.take] at h1
    exact hc (by simpa using h1)

lemma canonPath_roundtrip (p : PyStr) : canonPath ('/' :: canonPath p) = canonPath p := by
  rw [canonPath, removeUnwanted_pathParts, pathRoot_slash_canonPath, canonSegs_slash_canonPath]
  rw [stripJoin_root (Or.inr (Or.inl rfl)) canonSegs_clean, canonPath_eq]

/-! ### Character-class facts -/

lemma lower_mem_schemeChars {c : Char} (hc : c ∈ schemeChars) :
    pyLowerChar c ∈ schemeChars := by
  have h : schemeChars.all (fun c => decide (pyLowerChar c ∈ schemeChars)) = true := by decide
  simpa using List.all_eq_true.mp h c hc

lemma lower_fix {c : Char} (hc : c ∈ schemeChars) :
    pyLowerChar (pyLowerChar c) = pyLowerChar c := by
  have h : schemeChars.all (fun c => pyLowerChar (pyLowerChar c) == pyLowerChar c) = true := by
    decide
  simpa using List.all_eq_true.mp h c hc

lemma lower_alpha {c : Char} (hc : c ∈ asciiAlpha) : pyLowerChar c ∈ asciiAlpha := by
  have h : asciiAlpha.all (fun c => decide (pyLowerChar c ∈ asciiAlpha)) = true := by decide
  simpa using List.all_eq_true.mp h c hc

lemma schemeChars_facts {c : Char} (hc : c ∈ schemeChars) :
    c ≠ ':' ∧ c ≠ '/' ∧ c ≠ '?' ∧ c ≠ '#' ∧ isUnsafeByte c = false := by
  have h : schemeChars.all (fun c => decide (c ≠ ':') && decide (c ≠ '/') && decide (c ≠ '?')
      && decide (c ≠ '#') && !isUnsafeByte c) = true := by decide
  have := List.all_eq_true.mp h c hc
  simp only [Bool.and_eq_true, decide_eq_true_eq, Bool.not_eq_true'] at this
  exact ⟨this.1.1.1.1, this.1.1.1.2, this.1.1.2, this.1.2, this.2⟩

lemma alpha_facts {c : Char} (hc : c ∈ asciiAlpha) :
    isC0OrSpace c = false ∧ c ≠ ':' ∧ c ≠ '/' := by
  have h : asciiAlpha.all (fun c => !isC0OrSpace c && decide (c ≠ ':')
      && decide (c ≠ '/')) = true := by decide
  have := List.all_eq_true.mp h c hc
  simp only [Bool.and_eq_true, decide_eq_true_eq, Bool.not_eq_true'] at this
  exact ⟨this.1.1, this.1.2, this.2⟩

/-! ### splitOnceAt extraction facts -/

lemma splitOnceAt_fst_not_mem (c : Char) (s : PyStr) : ¬ c ∈ (splitOnceAt c s).1 := by
  rw [splitOnceAt]
  split
  · intro hm
    have := List.mem_takeWhile_imp hm
    simp at this
  · assumption

lemma splitOnceAt_fst_sublist (c : Char) (s : PyStr) : (splitOnceAt c s).1.Sublist s := by
  rw [splitOnceAt]
  split
  · exact List.takeWhile_sublist _
  · exact List.Sublist.refl s

lemma splitOnceAt_snd_sublist (c : Char) (s : PyStr) : (splitOnceAt c s).2.Sublist s := by
  rw [splitOnceAt]
  split
  · exact (List.tail_sublist _).trans (List.dropWhile_sublist _)
  · simp

/-! ### schemeSplit facts -/

lemma schemeSplit_cons (c : Char) (rest : PyStr) :
    schemeSplit (c :: rest) =
      if isAsciiAlpha c && decide (':' ∈ (c :: rest))
          && ((c :: rest).takeWhile (fun x => x != ':')).all isSchemeChar then
        (((c :: rest).takeWhile (fun x => x != ':')).map pyLowerChar,
         ((c :: rest).dropWhile (fun x => x != ':')).tail)
      else ([], c :: rest) := rfl

lemma schemeSplit_not_alpha {c : Char} (rest : PyStr) (hc : isAsciiAlpha c = false) :
    schemeSplit (c :: rest) = ([], c :: rest) := by
  rw [schemeSplit_cons]
  simp [hc]

lemma schemeSplit_valid {S : PyStr} (rest : PyStr) (hS : S ≠ [])
    (hall : ∀ c ∈ S, c ∈ schemeChars)
    (hhead : ∀ c, S.head? = some c → isAsciiAlpha c = true)
    (hfix : S.map pyLowerChar = S) :
    schemeSplit (S ++ ':' :: rest) = (S, rest) := by
  obtain ⟨c, t, rfl⟩ : ∃ c t, S = c :: t := by
    cases S with
    | nil => exact absurd rfl hS
    | cons c t => exact ⟨c, t, rfl⟩
  have hne : ∀ x ∈ c :: t, (x != ':') = true :=
    fun x hx => bne_iff_ne.mpr (schemeChars_facts (hall x hx)).1
  have hpre : ((c :: t) ++ ':' :: rest).takeWhile (fun x => x != ':') = c :: t :=
    takeWhile_append_stop rest hne (by simp)
  have hdrop : ((c :: t) ++ ':' :: rest).dropWhile (fun x => x != ':') = ':' :: rest :=
    dropWhile_append_stop rest hne (by simp)
  have hcond : (isAsciiAlpha c && decide (':' ∈ (c :: (t ++ ':' :: rest)))
      && ((c :: (t ++ ':' :: rest)).takeWhile (fun x => x != ':')).all isSchemeChar) = true := by
    rw [show c :: (t ++ ':' :: rest) = (c :: t) ++ ':' :: rest from rfl, hpre]
    have h1 : isAsciiAlpha c = true := hhead c rfl
    have h2 : (':' : Char) ∈ (c :: t) ++ ':' :: rest := by simp
    have h3 : (c :: t).all isSchemeChar = true :=
      List.all_eq_true.mpr (fun x hx => by simpa [isSchemeChar] using hall x hx)
    rw [List.cons_append] at h2
    simp [h1, h2, h3]
  rw [List.cons_append, schemeSplit_cons, if_pos hcond]
  rw [show c :: (t ++ ':' :: rest) = (c :: t) ++ ':' :: rest from rfl, hpre, hdrop]
  simp only [List.tail_cons]
  rw [hfix]

lemma schemeSplit_snd_sublist (s : PyStr) : (schemeSplit s).2.Sublist s := by
  cases s with
  | nil => simp [schemeSplit]
  | cons c rest =>
    rw [schemeSplit_cons]
    split
    · exact (List.tail_sublist _).trans (List.dropWhile_sublist _)
    · exact List.Sublist.refl _

lemma schemeSplit_fst_ok (s : PyStr) : SchemeOK (schemeSplit s).1 := by
  cases s with
  | nil =>
    refine ⟨by simp [schemeSplit], by simp [schemeSplit], ?_⟩
    simp [schemeSplit]
  | cons c rest =>
    rw [schemeSplit_cons]
    split
    case isTrue h =>
      simp only [Bool.and_eq_true] at h
      rcases h with ⟨⟨h1, _h2⟩, h3⟩
      have halpha : c ∈ asciiAlpha := by simpa [isAsciiAlpha] using h1
      have hmemchars : ∀ x ∈ (c :: rest).takeWhile (fun x => x != ':'), x ∈ schemeChars := by
        intro x hx
        have := List.all_eq_true.mp h3 x hx
        simpa [isSchemeChar] using this
      refine ⟨?_, ?_, ?_⟩
      · intro x hx
        rcases List.mem_map.mp hx with ⟨y, hy, rfl⟩
        exact lower_mem_schemeChars (hmemchars y hy)
      · rw [List.map_map]
        refine List.map_congr_left (fun y hy => ?_)
        exact lower_fix (hmemchars y hy)
      · intro x hx
        have hc' : c ≠ ':' := (alpha_facts halpha).2.1
        have hpre : (c :: rest).takeWhile (fun x => x != ':')
            = c :: rest.takeWhile (fun x => x != ':') := by
          rw [List.takeWhile_cons, if_pos (bne_iff_ne.mpr hc')]
        rw [hpre] at hx
        simp only [List.map_cons, List.head?_cons, Option.some.injEq] at hx
        rw [← hx]
        exact lower_alpha halpha
    case isFalse =>
      exact ⟨by simp, by simp, by simp⟩

lemma mem_of_sublist_clean {l₁ l₂ : PyStr} (h : l₁.Sublist l₂)
    (hc : ∀ c ∈ l₂, isUnsafeByte c = false) : ∀ c ∈ l₁, isUnsafeByte c = false :=
  fun c hm => hc c (h.mem hm)

lemma pyUrlsplit_inv (u : PyStr) :
    (∀ c ∈ (pyUrlsplit u).netloc, netlocEnd c = false) ∧
    (¬ '#' ∈ (pyUrlsplit u).path ∧ ¬ '?' ∈ (pyUrlsplit u).path) ∧
    ¬ '#' ∈ (pyUrlsplit u).query ∧
    (pyUrlsplit u).params = [] ∧
    (∀ c ∈ (pyUrlsplit u).netloc, isUnsafeByte c = false) ∧
    (∀ c ∈ (pyUrlsplit u).path, isUnsafeByte c = false) ∧
    (∀ c ∈ (pyUrlsplit u).query, isUnsafeByte c = false) ∧
    (∀ c ∈ (pyUrlsplit u).fragment, isUnsafeByte c = false) ∧
    SchemeOK (pyUrlsplit u).scheme := by
  have hclean2 : ∀ c ∈ ((u.dropWhile isC0OrSpace).filter (fun c => !isUnsafeByte c)),
      isUnsafeByte c = false := by
    intro c hc
    have := (List.mem_filter.mp hc).2
    simpa using this
  set url2 := ((u.dropWhile isC0OrSpace).filter (fun c => !isUnsafeByte c)) with hu2
  set sr := schemeSplit url2 with hsr
  set nr := if sr.2.take 2 = ['/', '/'] then splitnetloc (sr.2.drop 2) else ([], sr.2)
    with hnr
  set fr := splitOnceAt '#' nr.2 with hfr
  set qr := splitOnceAt '?' fr.1 with hqr
  have hrec : pyUrlsplit u = ⟨sr.1, nr.1, qr.1, [], qr.2, fr.2⟩ := rfl
  have hsr2 : sr.2.Sublist url2 := schemeSplit_snd_sublist url2
  have hnr1 : (∀ c ∈ nr.1, netlocEnd c = false) ∧ nr.1.Sublist url2 := by
    rw [hnr]
    split
    · constructor
      · intro c hc
        have := List.mem_takeWhile_imp hc
        simpa using this
      · exact ((List.takeWhile_sublist _).trans (List.drop_sublist _ _)).trans hsr2
    · simp
  have hnr2 : nr.2.Sublist url2 := by
    rw [hnr]
    split
    · exact ((List.dropWhile_sublist _).trans (List.drop_sublist _ _)).trans hsr2
    · exact hsr2
  have hfr1 : fr.1.Sublist nr.2 := splitOnceAt_fst_sublist '#' nr.2
  have hfr2 : fr.2.Sublist nr.2 := splitOnceAt_snd_sublist '#' nr.2
  have hqr1 : qr.1.Sublist fr.1 := splitOnceAt_fst_sublist '?' fr.1
  have hqr2 : qr.2.Sublist fr.1 := splitOnceAt_snd_sublist '?' fr.1
  have hfr1ne : ¬ '#' ∈ fr.1 := by
    rw [hfr]
    exact splitOnceAt_fst_not_mem '#' nr.2
  have hqr1ne : ¬ '?' ∈ qr.1 := by
    rw [hqr]
    exact splitOnceAt_fst_not_mem '?' fr.1
  rw [hrec]
  refine ⟨hnr1.1, ⟨?_, ?_⟩, ?_, rfl, ?_, ?_, ?_, ?_, ?_⟩
  · intro hm
    exact hfr1ne (hqr1.mem hm)
  · exact hqr1ne
  · intro hm
    exact hfr1ne (hqr2.mem hm)
  · exact mem_of_sublist_clean hnr1.2 hclean2
  · exact mem_of_sublist_clean ((hqr1.trans hfr1).trans hnr2) hclean2
  · exact mem_of_sublist_clean ((hqr2.trans hfr1).trans hnr2) hclean2
  · exact mem_of_sublist_clean (hfr2.trans hnr2) hclean2
  · exact schemeSplit_fst_ok url2

/-! ### splitparams and pyUrlparse invariants -/

lemma splitparams_sublists (s : PyStr) :
    (splitparams s).1.Sublist s ∧ (splitparams s).2.Sublist s := by
  have hsplit : (s.reverse.dropWhile (fun c => c != '/')).reverse
      ++ (s.reverse.takeWhile (fun c => c != '/')).reverse = s := by
    rw [← List.reverse_append, List.takeWhile_append_dropWhile, List.reverse_reverse]
  rw [splitparams]
  dsimp only
  split
  · split
    · constructor
      · conv_rhs => rw [← hsplit]
        exact List.Sublist.append (List.Sublist.refl _) (List.takeWhile_sublist _)
      · conv_rhs => rw [← hsplit]
        refine List.Sublist.trans ?_ (List.sublist_append_right _ _)
        exact (List.tail_sublist _).trans (List.dropWhile_sublist _)
    · exact ⟨List.Sublist.refl s, by simp⟩
  · split
    · exact ⟨List.takeWhile_sublist _, (List.tail_sublist _).trans (List.dropWhile_sublist _)⟩
    · exact ⟨List.Sublist.refl s, by simp⟩

lemma pyUrlparse_eq_split {u : PyStr} (h : ¬ ';' ∈ (pyUrlsplit u).path) :
    pyUrlparse u = pyUrlsplit u := by
  rw [pyUrlparse, if_neg]
  intro hc
  exact h hc.2

lemma pyUrlparse_inv (u : PyStr) :
    (∀ c ∈ (pyUrlparse u).netloc, netlocEnd c = false) ∧
    (¬ '#' ∈ (pyUrlparse u).path ∧ ¬ '?' ∈ (pyUrlparse u).path) ∧
    (¬ '#' ∈ (pyUrlparse u).params ∧ ¬ '?' ∈ (pyUrlparse u).params) ∧
    ¬ '#' ∈ (pyUrlparse u).query ∧
    (∀ c ∈ (pyUrlparse u).netloc, isUnsafeByte c = false) ∧
    (∀ c ∈ (pyUrlparse u).path, isUnsafeByte c = false) ∧
    (∀ c ∈ (pyUrlparse u).params, isUnsafeByte c = false) ∧
    (∀ c ∈ (pyUrlparse u).query, isUnsafeByte c = false) ∧
    (∀ c ∈ (pyUrlparse u).fragment, isUnsafeByte c = false) ∧
    SchemeOK (pyUrlparse u).scheme ∧
    (pyUrlparse u).scheme = (pyUrlsplit u).scheme ∧
    (pyUrlparse u).netloc = (pyUrlsplit u).netloc ∧
    (pyUrlparse u).query = (pyUrlsplit u).query ∧
    (pyUrlparse u).fragment = (pyUrlsplit u).fragment := by
  obtain ⟨hn1, ⟨hp1, hp2⟩, hq1, hpar, hn2, hp3, hq2, hf2, hsch⟩ := pyUrlsplit_inv u
  rw [pyUrlparse]
  split
  · have hsub := splitparams_sublists (pyUrlsplit u).path
    refine ⟨hn1, ⟨fun hm => hp1 (hsub.1.mem hm), fun hm => hp2 (hsub.1.mem hm)⟩,
      ⟨fun hm => hp1 (hsub.2.mem hm), fun hm => hp2 (hsub.2.mem hm)⟩,
      hq1, hn2, fun c hc => hp3 c (hsub.1.mem hc), fun c hc => hp3 c (hsub.2.mem hc),
      hq2, hf2, hsch, rfl, rfl, rfl, rfl⟩
  · exact ⟨hn1, ⟨hp1, hp2⟩, by simp [hpar], hq1, hn2, hp3, by simp [hpar], hq2, hf2,
      hsch, rfl, rfl, rfl, rfl⟩

/-! ### pyUrlunsplit shape -/

lemma pyUrlunsplit_shape (S N U F : PyStr) {q : PyStr} (hq : q ≠ []) :
    pyUrlunsplit S N U q F
      = pyUrlunsplit S N U [] [] ++ '?' :: q ++ (if F = [] then [] else '#' :: F) := by
  unfold pyUrlunsplit
  simp only [ne_eq, hq, not_false_eq_true, if_true, not_true_eq_false, if_false,
    List.append_assoc]
  split <;> simp_all [List.append_assoc]

lemma pyUrlunsplit_base_chars {S N U : PyStr} {c : Char}
    (hc : c ∈ pyUrlunsplit S N U [] []) :
    c ∈ S ∨ c ∈ N ∨ c ∈ U ∨ c = '/' ∨ c = ':' := by
  rw [pyUrlunsplit] at hc
  simp only [ne_eq, not_true_eq_false, if_false] at hc
  repeat' split at hc
  all_goals try simp only [List.mem_append, List.mem_cons] at hc
  all_goals tauto

/-! ### Reparse shape lemmas -/

lemma exists_split_first {c : Char} {s : PyStr} (h : c ∈ s) :
    ∃ a b, s = a ++ c :: b ∧ ¬ c ∈ a := by
  induction s with
  | nil => simp at h
  | cons x rest ih =>
    by_cases hx : x = c
    · subst hx
      exact ⟨[], rest, rfl, by simp⟩
    · have h' : c ∈ rest := by
        rcases List.mem_cons.mp h with h' | h'
        · exact absurd h'.symm hx
        · exact h'
      rcases ih h' with ⟨a, b, he, hna⟩
      refine ⟨x :: a, b, by rw [he]; rfl, ?_⟩
      intro hm
      rcases List.mem_cons.mp hm with hm | hm
      · exact hx hm.symm
      · exact hna hm

lemma dropWhile_shape (p : Char → Bool) (B rest : PyStr)
    (hrest : ∀ c, rest.head? = some c → p c = false) :
    ∃ B', B'.Sublist B ∧ (B ++ rest).dropWhile p = B' ++ rest := by
  rw [List.dropWhile_append]
  split
  · exact ⟨[], by simp, by rw [dropWhile_eq_self_of_head hrest]; simp⟩
  · exact ⟨B.dropWhile p, List.dropWhile_sublist _, rfl⟩

lemma filter_shape (p : Char → Bool) (B rest : PyStr) (hrest : rest.filter p = rest) :
    (B ++ rest).filter p = B.filter p ++ rest := by
  rw [List.filter_append, hrest]

lemma schemeSplit_shape (B rest : PyStr) (hrest : rest.head? = some '?') :
    ∃ B', B'.Sublist B ∧ (schemeSplit (B ++ rest)).2 = B' ++ rest := by
  obtain ⟨q', rfl⟩ : ∃ q', rest = '?' :: q' := by
    cases rest with
    | nil => simp at hrest
    | cons c t =>
      have hc : c = '?' := by simpa using hrest
      exact ⟨t, by rw [hc]⟩
  cases hw : B ++ '?' :: q' with
  | nil => simp at hw
  | cons c rest2 =>
    rw [schemeSplit_cons]
    split
    case isTrue h =>
      simp only [Bool.and_eq_true] at h
      rcases h with ⟨⟨_h1, _h2⟩, h3⟩
      by_cases hcB : ':' ∈ B
      · obtain ⟨a, b, hab, hna⟩ := exists_split_first hcB
        have hw2 : c :: rest2 = a ++ ':' :: (b ++ '?' :: q') := by
          rw [← hw, hab]
          simp
        have hall : ∀ x ∈ a, (x != ':') = true :=
          fun x hx => bne_iff_ne.mpr (fun he => hna (he ▸ hx))
        have hdw : (c :: rest2).dropWhile (fun x => x != ':') = ':' :: (b ++ '?' :: q') := by
          rw [hw2]
          exact dropWhile_append_stop _ hall (by simp)
        refine ⟨b, ?_, ?_⟩
        · rw [hab, show a ++ ':' :: b = (a ++ [':']) ++ b by simp]
          exact List.sublist_append_right _ _
        · rw [hdw]
          simp
      · exfalso
        have hallB : ∀ x ∈ B, ((fun x => x != ':') x) = true :=
          fun x hx => bne_iff_ne.mpr (fun he => hcB (he ▸ hx))
        have hpre : (c :: rest2).takeWhile (fun x => x != ':')
            = B ++ '?' :: (q'.takeWhile (fun x => x != ':')) := by
          rw [← hw, takeWhile_append_all _ hallB, List.takeWhile_cons]
          simp
        have hmem : '?' ∈ (c :: rest2).takeWhile (fun x => x != ':') := by
          rw [hpre]
          simp
        have := List.all_eq_true.mp h3 '?' hmem
        exact absurd this (by decide)
    case isFalse =>
      exact ⟨B, List.Sublist.refl B, hw.symm⟩

lemma netloc_shape (B rest : PyStr) (hrest : rest.head? = some '?') :
    ∃ B', B'.Sublist B ∧
      (if (B ++ rest).take 2 = ['/', '/']
        then splitnetloc ((B ++ rest).drop 2) else ([], B ++ rest)).2 = B' ++ rest := by
  obtain ⟨q', rfl⟩ : ∃ q', rest = '?' :: q' := by
    cases rest with
    | nil => simp at hrest
    | cons c t =>
      have hc : c = '?' := by simpa using hrest
      exact ⟨t, by rw [hc]⟩
  match B with
  | [] =>
    rw [if_neg (by simp [List.take])]
    exact ⟨[], by simp, by simp⟩
  | [c] =>
    rw [if_neg (by simp [List.take])]
    exact ⟨[c], by simp, by simp⟩
  | c1 :: c2 :: B3 =>
    by_cases h2 : c1 = '/' ∧ c2 = '/'
    · rcases h2 with ⟨rfl, rfl⟩
      rw [if_pos (by simp [List.take])]
      have hdrop : ('/' :: '/' :: B3 ++ '?' :: q').drop 2 = B3 ++ '?' :: q' := by simp
      rw [splitnetloc, hdrop]
      obtain ⟨B4, hB4, he⟩ := dropWhile_shape (fun c => !netlocEnd c) B3 ('?' :: q')
        (by intro c hc; simp at hc; rw [← hc]; decide)
      refine ⟨B4, ?_, he⟩
      exact hB4.trans ((List.sublist_cons_self _ _).trans (List.sublist_cons_self _ _))
    · rw [if_neg]
      · exact ⟨c1 :: c2 :: B3, List.Sublist.refl _, rfl⟩
      · intro he
        simp [List.take] at he
        exact h2 ⟨he.1, he.2⟩

lemma pyUrlsplit_unfold (u : PyStr) :
    pyUrlsplit u =
      ⟨(schemeSplit ((u.dropWhile isC0OrSpace).filter (fun c => !isUnsafeByte c))).1,
        (if (schemeSplit ((u.dropWhile isC0OrSpace).filter
              (fun c => !isUnsafeByte c))).2.take 2 = ['/', '/'] then
          splitnetloc ((schemeSplit ((u.dropWhile isC0OrSpace).filter
              (fun c => !isUnsafeByte c))).2.drop 2)
        else ([], (schemeSplit ((u.dropWhile isC0OrSpace).filter
              (fun c => !isUnsafeByte c))).2)).1,
        (splitOnceAt '?' (splitOnceAt '#'
          (if (schemeSplit ((u.dropWhile isC0OrSpace).filter
              (fun c => !isUnsafeByte c))).2.take 2 = ['/', '/'] then
            splitnetloc ((schemeSplit ((u.dropWhile isC0OrSpace).filter
                (fun c => !isUnsafeByte c))).2.drop 2)
          else ([], (schemeSplit ((u.dropWhile isC0OrSpace).filter
              (fun c => !isUnsafeByte c))).2)).2).1).1,
        [],
        (splitOnceAt '?' (splitOnceAt '#'
          (if (schemeSplit ((u.dropWhile isC0OrSpace).filter
              (fun c => !isUnsafeByte c))).2.take 2 = ['/', '/'] then
            splitnetloc ((schemeSplit ((u.dropWhile isC0OrSpace).filter
                (fun c => !isUnsafeByte c))).2.drop 2)
          else ([], (schemeSplit ((u.dropWhile isC0OrSpace).filter
              (fun c => !isUnsafeByte c))).2)).2).1).2,
        (splitOnceAt '#'
          (if (schemeSplit ((u.dropWhile isC0OrSpace).filter
              (fun c => !isUnsafeByte c))).2.take 2 = ['/', '/'] then
            splitnetloc ((schemeSplit ((u.dropWhile isC0OrSpace).filter
                (fun c => !isUnsafeByte c))).2.drop 2)
          else ([], (schemeSplit ((u.dropWhile isC0OrSpace).filter
              (fun c => !isUnsafeByte c))).2)).2).2⟩ := rfl

lemma pyUrlsplit_of_shape (B q T : PyStr)
    (hBq : ¬ '?' ∈ B) (hBh : ¬ '#' ∈ B) (hqh : ¬ '#' ∈ q)
    (hclean : ∀ c ∈ B ++ '?' :: (q ++ T), isUnsafeByte c = false)
    (hT : T = [] ∨ ∃ F, T = '#' :: F) :
    (pyUrlsplit (B ++ '?' :: (q ++ T))).query = q ∧
    (pyUrlsplit (B ++ '?' :: (q ++ T))).fragment = T.tail := by
  obtain ⟨B₁, hB₁, hA⟩ := dropWhile_shape isC0OrSpace B ('?' :: (q ++ T))
    (by
      intro c hc
      simp only [List.head?_cons, Option.some.injEq] at hc
      rw [← hc]
      decide)
  have hrest_clean : ('?' :: (q ++ T)).filter (fun c => !isUnsafeByte c) = '?' :: (q ++ T) := by
    apply List.filter_eq_self.mpr
    intro a ha
    have : isUnsafeByte a = false := hclean a (List.mem_append_right B ha)
    simp [this]
  have hBfact : (B₁ ++ '?' :: (q ++ T)).filter (fun c => !isUnsafeByte c)
      = (B₁.filter (fun c => !isUnsafeByte c)) ++ '?' :: (q ++ T) :=
    filter_shape _ _ _ hrest_clean
  have hB₂ : (B₁.filter (fun c => !isUnsafeByte c)).Sublist B :=
    (List.filter_sublist _).trans hB₁
  obtain ⟨B₃, hB₃, hC⟩ := schemeSplit_shape (B₁.filter (fun c => !isUnsafeByte c))
    ('?' :: (q ++ T)) (by simp)
  obtain ⟨B₄, hB₄, hD⟩ := netloc_shape B₃ ('?' :: (q ++ T)) (by simp)
  have hB₄B : B₄.Sublist B := (hB₄.trans hB₃).trans hB₂
  have hB₄q : ¬ '?' ∈ B₄ := fun hm => hBq (hB₄B.mem hm)
  have hB₄h : ¬ '#' ∈ B₄ := fun hm => hBh (hB₄B.mem hm)
  rw [pyUrlsplit_unfold, hA, hBfact, hC, hD]
  rcases hT with rfl | ⟨F, rfl⟩
  · simp only [List.append_nil]
    have h1 : ¬ '#' ∈ B₄ ++ '?' :: q := by
      intro hm
      rcases List.mem_append.mp hm with hm | hm
      · exact hB₄h hm
      · rcases List.mem_cons.mp hm with hm | hm
        · exact absurd hm (by decide)
        · exact hqh hm
    rw [splitOnceAt_not_mem h1]
    simp only [List.tail_nil]
    rw [splitOnceAt_append q hB₄q]
    constructor <;> simp
  · have h1 : ¬ '#' ∈ B₄ ++ '?' :: q := by
      intro hm
      rcases List.mem_append.mp hm with hm | hm
      · exact hB₄h hm
      · rcases List.mem_cons.mp hm with hm | hm
        · exact absurd hm (by decide)
        · exact hqh hm
    have hassoc : B₄ ++ '?' :: (q ++ '#' :: F) = (B₄ ++ '?' :: q) ++ '#' :: F := by simp
    rw [hassoc, splitOnceAt_append F h1]
    simp only [List.tail_cons]
    rw [splitOnceAt_append q hB₄q]
    constructor <;> simp

lemma pyUrlsplit_reparse_netloc (S N T : PyStr)
    (hS : SchemeOK S) (hNc : ∀ c ∈ N, netlocEnd c = false)
    (hNu : ∀ c ∈ N, isUnsafeByte c = false)
    (hT : T.take 1 = ['/']) (hTu : ∀ c ∈ T, isUnsafeByte c = false) :
    pyUrlsplit ((if S = [] then [] else S ++ [':']) ++ '/' :: '/' :: (N ++ T))
      = ⟨S, N, (splitOnceAt '?' (splitOnceAt '#' T).1).1, [],
         (splitOnceAt '?' (splitOnceAt '#' T).1).2, (splitOnceAt '#' T).2⟩ := by
  obtain ⟨T', rfl⟩ : ∃ T', T = '/' :: T' := by
    cases T with
    | nil => simp at hT
    | cons c t =>
      have hc : c = '/' := by simpa using hT
      exact ⟨t, by rw [hc]⟩
  obtain ⟨hSchars, hSfix, hShead⟩ := hS
  have hdrop : ((if S = [] then [] else S ++ [':']) ++ '/' :: '/' :: (N ++ '/' :: T')).dropWhile
      isC0OrSpace = (if S = [] then [] else S ++ [':']) ++ '/' :: '/' :: (N ++ '/' :: T') := by
    apply dropWhile_eq_self_of_head
    intro c hc
    by_cases hSe : S = []
    · rw [if_pos hSe] at hc
      simp only [List.nil_append, List.head?_cons, Option.some.injEq] at hc
      rw [← hc]
      decide
    · rw [if_neg hSe] at hc
      obtain ⟨c0, S', rfl⟩ : ∃ c0 S', S = c0 :: S' := by
        cases S with
        | nil => exact absurd rfl hSe
        | cons c0 S' => exact ⟨c0, S', rfl⟩
      simp only [List.cons_append, List.head?_cons, Option.some.injEq] at hc
      rw [← hc]
      exact (alpha_facts (hShead c0 rfl)).1
  have hfilt : ((if S = [] then [] else S ++ [':']) ++ '/' :: '/' :: (N ++ '/' :: T')).filter
      (fun c => !isUnsafeByte c)
      = (if S = [] then [] else S ++ [':']) ++ '/' :: '/' :: (N ++ '/' :: T') := by
    apply List.filter_eq_self.mpr
    intro a ha
    have hau : isUnsafeByte a = false := by
      rcases List.mem_append.mp ha with h | h
      · split at h
        · simp at h
        · rcases List.mem_append.mp h with h' | h'
          · exact (schemeChars_facts (hSchars a h')).2.2.2.2
          · have : a = ':' := by simpa using h'
            rw [this]
            decide
      · rcases List.mem_cons.mp h with h' | h'
        · rw [h']
          decide
        · rcases List.mem_cons.mp h' with h'' | h''
          · rw [h'']
            decide
          · rcases List.mem_append.mp h'' with h3 | h3
            · exact hNu a h3
            · exact hTu a h3
    simp [hau]
  have hscheme : schemeSplit ((if S = [] then [] else S ++ [':'])
      ++ '/' :: '/' :: (N ++ '/' :: T')) = (S, '/' :: '/' :: (N ++ '/' :: T')) := by
    by_cases hSe : S = []
    · rw [if_pos hSe, hSe]
      simp only [List.nil_append]
      exact schemeSplit_not_alpha _ (by decide)
    · rw [if_neg hSe, show (S ++ [':']) ++ '/' :: '/' :: (N ++ '/' :: T')
        = S ++ ':' :: ('/' :: '/' :: (N ++ '/' :: T')) from by simp]
      refine schemeSplit_valid _ hSe hSchars ?_ hSfix
      intro c hc
      simpa [isAsciiAlpha] using hShead c hc
  have hnetloc : splitnetloc (N ++ '/' :: T') = (N, '/' :: T') := by
    have hall : ∀ x ∈ N, (!netlocEnd x) = true := by
      intro x hx
      simp [hNc x hx]
    rw [splitnetloc, takeWhile_append_stop _ hall (by decide),
      dropWhile_append_stop _ hall (by decide)]
  rw [pyUrlsplit_unfold, hdrop, hfilt, hscheme]
  simp [List.take, List.drop, hnetloc]

/-! ### Shape of the sanitize_url output -/

lemma canonQuery_ne_nil (p2 : PyStr) : canonQuery p2 ≠ [] := by
  rw [canonQuery]
  split <;> decide

lemma canonQuery_clean (p2 : PyStr) :
    (¬ '#' ∈ canonQuery p2) ∧ ∀ c ∈ canonQuery p2, isUnsafeByte c = false := by
  rw [canonQuery]
  split <;> exact ⟨by decide, by decide⟩

lemma sanitize_eq {u : PyStr} (hu : u ≠ []) :
    sanitize_url u = pyUrlunparse { pyUrlparse u with
      path := if canonPath (pyUrlparse u).path = [] then ['/']
        else canonPath (pyUrlparse u).path,
      query := canonQuery (canonPath (pyUrlparse u).path) } := by
  rw [sanitize_url, if_neg hu]

lemma sanitize_shape {u : PyStr} (hu : u ≠ []) :
    sanitize_url u = pyUrlunsplit (pyUrlparse u).scheme (pyUrlparse u).netloc
        (if (pyUrlparse u).params ≠ []
          then (if canonPath (pyUrlparse u).path = [] then ['/']
              else canonPath (pyUrlparse u).path) ++ ';' :: (pyUrlparse u).params
          else if canonPath (pyUrlparse u).path = [] then ['/']
            else canonPath (pyUrlparse u).path)
        [] []
      ++ '?' :: (canonQuery (canonPath (pyUrlparse u).path)
        ++ (if (pyUrlparse u).fragment = [] then []
          else '#' :: (pyUrlparse u).fragment)) := by
  rw [sanitize_eq hu, pyUrlunparse]
  dsimp only
  rw [pyUrlunsplit_shape _ _ _ _ (canonQuery_ne_nil _)]
  simp [List.append_assoc]

lemma base_no_special {S N U : PyStr} (hS : SchemeOK S)
    (hN : ∀ c ∈ N, netlocEnd c = false) (hNu : ∀ c ∈ N, isUnsafeByte c = false)
    (hU : ∀ c ∈ U, (c ≠ '?' ∧ c ≠ '#') ∧ isUnsafeByte c = false) :
    (¬ '?' ∈ pyUrlunsplit S N U [] []) ∧ (¬ '#' ∈ pyUrlunsplit S N U [] []) ∧
      ∀ c ∈ pyUrlunsplit S N U [] [], isUnsafeByte c = false := by
  have key : ∀ c ∈ pyUrlunsplit S N U [] [], (c ≠ '?' ∧ c ≠ '#') ∧ isUnsafeByte c = false := by
    intro c hc
    rcases pyUrlunsplit_base_chars hc with h | h | h | h | h
    · have hsc := hS.1 c h
      rcases schemeChars_facts hsc with ⟨_, _, h3, h4, h5⟩
      exact ⟨⟨h3, h4⟩, h5⟩
    · have := hN c h
      refine ⟨⟨fun he => ?_, fun he => ?_⟩, hNu c h⟩
      · rw [he] at this
        simp [netlocEnd] at this
      · rw [he] at this
        simp [netlocEnd] at this
    · exact hU c h
    · rw [h]
      exact ⟨by decide, by decide⟩
    · rw [h]
      exact ⟨by decide, by decide⟩
  exact ⟨fun hm => (key '?' hm).1.1 rfl, fun hm => (key '#' hm).1.2 rfl,
    fun c hc => (key c hc).2⟩

lemma sanitize_upath_chars (u : PyStr) :
    ∀ c ∈ (if (pyUrlparse u).params ≠ []
        then (if canonPath (pyUrlparse u).path = [] then ['/']
            else canonPath (pyUrlparse u).path) ++ ';' :: (pyUrlparse u).params
        else if canonPath (pyUrlparse u).path = [] then ['/']
          else canonPath (pyUrlparse u).path),
      (c ≠ '?' ∧ c ≠ '#') ∧ isUnsafeByte c = false := by
  obtain ⟨_, ⟨hp1, hp2⟩, ⟨hpr1, hpr2⟩, _, _, hp3, hpr3, _, _, _, _, _, _, _⟩ := pyUrlparse_inv u
  have hpath : ∀ c ∈ (if canonPath (pyUrlparse u).path = [] then ['/']
      else canonPath (pyUrlparse u).path), (c ≠ '?' ∧ c ≠ '#') ∧ isUnsafeByte c = false := by
    intro c hc
    split at hc
    · have : c = '/' := by simpa using hc
      rw [this]
      exact ⟨by decide, by decide⟩
    · rcases mem_canonPath_chars hc with h | ⟨h, _⟩
      · rw [h]
        exact ⟨by decide, by decide⟩
      · refine ⟨⟨fun he => hp2 (he ▸ h), fun he => hp1 (he ▸ h)⟩, hp3 c h⟩
  intro c hc
  split at hc
  · rcases List.mem_append.mp hc with h | h
    · exact hpath c h
    · rcases List.mem_cons.mp h with h | h
      · rw [h]
        exact ⟨by decide, by decide⟩
      · exact ⟨⟨fun he => hpr2 (he ▸ h), fun he => hpr1 (he ▸ h)⟩, hpr3 c h⟩
  · exact hpath c hc

lemma sanitize_reparse_query_frag {u : PyStr} (hu : u ≠ []) :
    (pyUrlsplit (sanitize_url u)).query = canonQuery (canonPath (pyUrlparse u).path) ∧
    (pyUrlsplit (sanitize_url u)).fragment = (pyUrlparse u).fragment := by
  obtain ⟨hN, _, _, _, hNu, _, _, _, hFu, hS, _, _, _, _⟩ := pyUrlparse_inv u
  rw [sanitize_shape hu]
  obtain ⟨hBq, hBh, hBu⟩ := base_no_special hS hN hNu (sanitize_upath_chars u)
  have hclean : ∀ c ∈ pyUrlunsplit (pyUrlparse u).scheme (pyUrlparse u).netloc
      (if (pyUrlparse u).params ≠ []
        then (if canonPath (pyUrlparse u).path = [] then ['/']
            else canonPath (pyUrlparse u).path) ++ ';' :: (pyUrlparse u).params
        else if canonPath (pyUrlparse u).path = [] then ['/']
          else canonPath (pyUrlparse u).path) [] []
      ++ '?' :: (canonQuery (canonPath (pyUrlparse u).path)
        ++ (if (pyUrlparse u).fragment = [] then []
          else '#' :: (pyUrlparse u).fragment)), isUnsafeByte c = false := by
    intro c hc
    rcases List.mem_append.mp hc with h | h
    · exact hBu c h
    · rcases List.mem_cons.mp h with h | h
      · rw [h]
        decide
      · rcases List.mem_append.mp h with h | h
        · exact (canonQuery_clean _).2 c h
        · split at h
          · simp at h
          · rcases List.mem_cons.mp h with h | h
            · rw [h]
              decide
            · exact hFu c h
  have hT : (if (pyUrlparse u).fragment = [] then ([] : PyStr)
      else '#' :: (pyUrlparse u).fragment) = [] ∨
      ∃ F, (if (pyUrlparse u).fragment = [] then ([] : PyStr)
        else '#' :: (pyUrlparse u).fragment) = '#' :: F := by
    split
    · exact Or.inl rfl
    · exact Or.inr ⟨(pyUrlparse u).fragment, rfl⟩
  obtain ⟨h1, h2⟩ := pyUrlsplit_of_shape _ _ _ hBq hBh (canonQuery_clean _).1 hclean hT
  refine ⟨h1, ?_⟩
  rw [h2]
  split
  case isTrue h => simp [h]
  case isFalse h => simp

lemma sanitize_ne_nil {u : PyStr} (hu : u ≠ []) : sanitize_url u ≠ [] := by
  rw [sanitize_shape hu]
  simp


lemma unsplit_base_netloc (S N p2 : PyStr) (hN : N ≠ []) (hp : p2.take 1 ≠ ['/']) :
    pyUrlunsplit S N (if p2 = [] then ['/'] else p2) [] []
      = (if S = [] then [] else S ++ [':']) ++ '/' :: '/' :: (N ++ '/' :: p2) := by
  by_cases hp2 : p2 = []
  · subst hp2
    by_cases hS : S = [] <;> simp [pyUrlunsplit, hN, hS]
  · by_cases hS : S = [] <;> simp [pyUrlunsplit, hN, hS, hp2, hp]

lemma tail_splits (p2 q F : PyStr)
    (hp2h : ¬ '#' ∈ p2) (hp2q : ¬ '?' ∈ p2) (hqh : ¬ '#' ∈ q) :
    (splitOnceAt '#' ('/' :: p2 ++ '?' :: (q ++ (if F = [] then [] else '#' :: F)))).2 = F ∧
    (splitOnceAt '?' ((splitOnceAt '#'
      ('/' :: p2 ++ '?' :: (q ++ (if F = [] then [] else '#' :: F)))).1)).1 = '/' :: p2 ∧
    (splitOnceAt '?' ((splitOnceAt '#'
      ('/' :: p2 ++ '?' :: (q ++ (if F = [] then [] else '#' :: F)))).1)).2 = q := by
  have hpre_h : ¬ '#' ∈ ('/' :: p2) ++ '?' :: q := by
    intro hm
    rcases List.mem_append.mp hm with h | h
    · rcases List.mem_cons.mp h with h | h
      · exact absurd h (by decide)
      · exact hp2h h
    · rcases List.mem_cons.mp h with h | h
      · exact absurd h (by decide)
      · exact hqh h
  have hpre_q : ¬ '?' ∈ '/' :: p2 := by
    intro hm
    rcases List.mem_cons.mp hm with h | h
    · exact absurd h (by decide)
    · exact hp2q h
  split
  case isTrue hF =>
    have e0 : '/' :: p2 ++ '?' :: (q ++ []) = ('/' :: p2) ++ '?' :: q := by simp
    rw [e0, splitOnceAt_not_mem hpre_h]
    dsimp only
    rw [splitOnceAt_append q hpre_q]
    exact ⟨hF.symm, rfl, rfl⟩
  case isFalse hF =>
    have e0 : '/' :: p2 ++ '?' :: (q ++ '#' :: F) = (('/' :: p2) ++ '?' :: q) ++ '#' :: F := by
      simp
    rw [e0, splitOnceAt_append F hpre_h]
    dsimp only
    rw [splitOnceAt_append q hpre_q]
    exact ⟨rfl, rfl, rfl⟩

lemma sanitize_reparse_split {u : PyStr}
    (hN : (pyUrlsplit u).netloc ≠ []) (hsemi : ¬ ';' ∈ (pyUrlsplit u).path) :
    pyUrlsplit (sanitize_url u)
      = ⟨(pyUrlsplit u).scheme, (pyUrlsplit u).netloc,
         '/' :: canonPath (pyUrlsplit u).path, [],
         canonQuery (canonPath (pyUrlsplit u).path), (pyUrlsplit u).fragment⟩ := by
  have hu : u ≠ [] := by
    intro h
    apply hN
    rw [h]
    decide
  have hPe : pyUrlparse u = pyUrlsplit u := pyUrlparse_eq_split hsemi
  obtain ⟨hNc, ⟨hph, hpq⟩, hqh0, hpar, hNu, hpu, hqu, hFu, hS⟩ := pyUrlsplit_inv u
  have hp2chars : ∀ c ∈ canonPath (pyUrlsplit u).path,
      (c ≠ '#' ∧ c ≠ '?' ∧ c ≠ ';') ∧ isUnsafeByte c = false := by
    intro c hc
    rcases mem_canonPath_chars hc with h | ⟨h, _⟩
    · rw [h]
      exact ⟨by decide, by decide⟩
    · exact ⟨⟨fun he => hph (he ▸ h), fun he => hpq (he ▸ h),
        fun he => hsemi (he ▸ h)⟩, hpu c h⟩
  have hshape := sanitize_shape hu
  rw [hPe, hpar] at hshape
  simp only [ne_eq, not_true_eq_false, if_false] at hshape
  rw [unsplit_base_netloc _ _ _ hN (canonPath_take_one _)] at hshape
  rw [show ((if (pyUrlsplit u).scheme = [] then [] else (pyUrlsplit u).scheme ++ [':'])
        ++ '/' :: '/' :: ((pyUrlsplit u).netloc ++ '/' :: canonPath (pyUrlsplit u).path))
      ++ '?' :: (canonQuery (canonPath (pyUrlsplit u).path)
        ++ (if (pyUrlsplit u).fragment = [] then []
          else '#' :: (pyUrlsplit u).fragment))
      = (if (pyUrlsplit u).scheme = [] then [] else (pyUrlsplit u).scheme ++ [':'])
        ++ '/' :: '/' :: ((pyUrlsplit u).netloc
          ++ ('/' :: canonPath (pyUrlsplit u).path
            ++ '?' :: (canonQuery (canonPath (pyUrlsplit u).path)
              ++ (if (pyUrlsplit u).fragment = [] then []
                else '#' :: (pyUrlsplit u).fragment))))
    from by simp] at hshape
  rw [hshape]
  rw [pyUrlsplit_reparse_netloc (pyUrlsplit u).scheme (pyUrlsplit u).netloc
    ('/' :: canonPath (pyUrlsplit u).path
      ++ '?' :: (canonQuery (canonPath (pyUrlsplit u).path)
        ++ (if (pyUrlsplit u).fragment = [] then []
          else '#' :: (pyUrlsplit u).fragment)))
    hS hNc hNu (by simp) ?hcleanT]
  case hcleanT =>
    intro c hc
    rcases List.mem_cons.mp hc with h | h
    · rw [h]
      decide
    · rcases List.mem_append.mp h with h | h
      · exact (hp2chars c h).2
      · rcases List.mem_cons.mp h with h | h
        · rw [h]
          decide
        · rcases List.mem_append.mp h with h | h
          · exact (canonQuery_clean _).2 c h
          · split at h
            · simp at h
            · rcases List.mem_cons.mp h with h | h
              · rw [h]
                decide
              · exact hFu c h
  obtain ⟨e1, e2, e3⟩ := tail_splits (canonPath (pyUrlsplit u).path)
    (canonQuery (canonPath (pyUrlsplit u).path)) (pyUrlsplit u).fragment
    (fun hm => (hp2chars '#' hm).1.1 rfl)
    (fun hm => (hp2chars '?' hm).1.2.1 rfl)
    (canonQuery_clean _).1
  rw [e1, e2, e3]

lemma sanitize_idem {u : PyStr}
    (hN : (pyUrlsplit u).netloc ≠ []) (hsemi : ¬ ';' ∈ (pyUrlsplit u).path) :
    sanitize_url (sanitize_url u) = sanitize_url u := by
  have hu : u ≠ [] := by
    intro h
    apply hN
    rw [h]
    decide
  have hpar : (pyUrlsplit u).params = [] := (pyUrlsplit_inv u).2.2.2.1
  have hPe : pyUrlparse u = pyUrlsplit u := pyUrlparse_eq_split hsemi
  have hs1ne : sanitize_url u ≠ [] := sanitize_ne_nil hu
  have hsplit1 := sanitize_reparse_split hN hsemi
  have hsemi1 : ¬ ';' ∈ (pyUrlsplit (sanitize_url u)).path := by
    rw [hsplit1]
    intro hm
    rcases List.mem_cons.mp hm with h | h
    · exact absurd h (by decide)
    · rcases mem_canonPath_chars h with h' | ⟨h', _⟩
      · exact absurd h' (by decide)
      · exact hsemi h'
  have hPe1 : pyUrlparse (sanitize_url u) = pyUrlsplit (sanitize_url u) :=
    pyUrlparse_eq_split hsemi1
  rw [sanitize_eq hs1ne, hPe1, hsplit1]
  dsimp only
  rw [canonPath_roundtrip]
  rw [sanitize_eq hu, hPe]
  dsimp only
  rw [hpar]

/-! ### pyReplace analysis -/

lemma pyReplaceAux_cons (pat sub : PyStr) (n : Nat) (c : Char) (rest : PyStr) :
    pyReplaceAux pat sub (n + 1) (c :: rest) =
      if pat.isPrefixOf (c :: rest) then
        sub ++ pyReplaceAux pat sub n (rest.drop (pat.length - 1))
      else c :: pyReplaceAux pat sub n rest := by
  rw [pyReplaceAux]

lemma https_crossing {X a b : PyStr}
    (h : 'h' :: 't' :: 't' :: 'p' :: 's' :: ':' :: X
        = a ++ 'h' :: 't' :: 't' :: 'p' :: ':' :: b) :
    ∃ a2 b2, X = a2 ++ 'h' :: 't' :: 't' :: 'p' :: ':' :: b2 := by
  rcases a with _ | ⟨c1, a⟩
  · simp only [List.nil_append, List.cons.injEq] at h
    exact absurd h.2.2.2.2.1 (by decide)
  simp only [List.cons_append, List.cons.injEq] at h
  obtain ⟨-, h⟩ := h
  rcases a with _ | ⟨c2, a⟩
  · simp only [List.nil_append, List.cons.injEq] at h
    exact absurd h.1 (by decide)
  simp only [List.cons_append, List.cons.injEq] at h
  obtain ⟨-, h⟩ := h
  rcases a with _ | ⟨c3, a⟩
  · simp only [List.nil_append, List.cons.injEq] at h
    exact absurd h.1 (by decide)
  simp only [List.cons_append, List.cons.injEq] at h
  obtain ⟨-, h⟩ := h
  rcases a with _ | ⟨c4, a⟩
  · simp only [List.nil_append, List.cons.injEq] at h
    exact absurd h.1 (by decide)
  simp only [List.cons_append, List.cons.injEq] at h
  obtain ⟨-, h⟩ := h
  rcases a with _ | ⟨c5, a⟩
  · simp only [List.nil_append, List.cons.injEq] at h
    exact absurd h.1 (by decide)
  simp only [List.cons_append, List.cons.injEq] at h
  obtain ⟨-, h⟩ := h
  rcases a with _ | ⟨c6, a⟩
  · simp only [List.nil_append, List.cons.injEq] at h
    exact absurd h.1 (by decide)
  simp only [List.cons_append, List.cons.injEq] at h
  obtain ⟨-, h⟩ := h
  exact ⟨a, b, h⟩

lemma aux_cons_inv {x : Char} (hx : x ≠ 'h') (n : Nat) (rest Z : PyStr)
    (h : pyReplaceAux ('h' :: 't' :: 't' :: 'p' :: ':' :: [])
        ('h' :: 't' :: 't' :: 'p' :: 's' :: ':' :: []) n rest = x :: Z) :
    ∃ m r', rest = x :: r' ∧ pyReplaceAux ('h' :: 't' :: 't' :: 'p' :: ':' :: [])
        ('h' :: 't' :: 't' :: 'p' :: 's' :: ':' :: []) m r' = Z := by
  cases n with
  | zero => simp [pyReplaceAux] at h
  | succ n =>
    cases rest with
    | nil => simp [pyReplaceAux] at h
    | cons c r' =>
      rw [pyReplaceAux_cons] at h
      split at h
      · simp only [List.cons_append, List.cons.injEq] at h
        exact absurd h.1.symm hx
      · simp only [List.cons.injEq] at h
        exact ⟨n, r', by rw [h.1], h.2⟩

lemma replaceAux_no_http : ∀ (n : Nat) (s : PyStr) (a b : PyStr),
    pyReplaceAux ('h' :: 't' :: 't' :: 'p' :: ':' :: [])
        ('h' :: 't' :: 't' :: 'p' :: 's' :: ':' :: []) n s
      ≠ a ++ 'h' :: 't' :: 't' :: 'p' :: ':' :: b := by
  intro n
  induction n with
  | zero =>
    intro s a b
    simp [pyReplaceAux]
  | succ n ih =>
    intro s a b h
    cases s with
    | nil => simp [pyReplaceAux] at h
    | cons c rest =>
      rw [pyReplaceAux_cons] at h
      split at h
      case isTrue hpre =>
        simp only [List.cons_append, List.nil_append] at h
        obtain ⟨a2, b2, h2⟩ := https_crossing h
        exact ih _ a2 b2 h2
      case isFalse hpre =>
        rcases a with _ | ⟨c0, a'⟩
        · simp only [List.nil_append, List.cons.injEq] at h
          obtain ⟨h1, h2⟩ := h
          subst h1
          obtain ⟨m1, r1, rfl, hh1⟩ := aux_cons_inv (by decide) _ _ _ h2
          obtain ⟨m2, r2, rfl, hh2⟩ := aux_cons_inv (by decide) _ _ _ hh1
          obtain ⟨m3, r3, rfl, hh3⟩ := aux_cons_inv (by decide) _ _ _ hh2
          obtain ⟨m4, r4, rfl, -⟩ := aux_cons_inv (by decide) _ _ _ hh3
          apply hpre
          simp [List.isPrefixOf]
        · simp only [List.cons_append, List.cons.injEq] at h
          exact ih rest a' b h.2

/-! ### Reconciler helpers -/

lemma mainLoop_eq (cur : List PyStr) (l : List PyStr) :
    mainLoop cur l = (l.filter (keepFeed cur), (l.filter (keepFeed cur)).length) := by
  induction l with
  | nil => rfl
  | cons v rest ih =>
    rw [mainLoop, ih]
    by_cases h : keepFeed cur v <;> simp [h, List.filter_cons]

lemma keepFeed_iff (cur : List PyStr) (v : PyStr) :
    keepFeed cur v = true ↔ v ≠ [] ∧ ¬ swapToHttps v ∈ cur ∧ ¬ swapToHttp v ∈ cur := by
  simp [keepFeed]
  tauto

/-! ### RFC 3986 character-level validity: percent-escapes and URI chars -/

lemma percentOkB_cons_ne (s : PyStr) {c : Char} (hc : c ≠ '%') :
    percentOkB (c :: s) = percentOkB s := by
  rw [percentOkB.eq_def]
  dsimp only
  rw [if_neg hc]

lemma percentOkB_triplet (h1 h2 : Char) (rest : PyStr) :
    percentOkB ('%' :: h1 :: h2 :: rest)
      = (isHexDigit h1 && isHexDigit h2 && percentOkB rest) := rfl

lemma percentOkB_pct_nil : percentOkB ['%'] = false := rfl

lemma percentOkB_pct_one (h1 : Char) : percentOkB ['%', h1] = false := rfl

lemma percentOkB_pct_elim {rest : PyStr} (h : percentOkB ('%' :: rest) = true) :
    ∃ h1 h2 rest2, rest = h1 :: h2 :: rest2 ∧ isHexDigit h1 = true ∧
      isHexDigit h2 = true ∧ percentOkB rest2 = true := by
  rcases rest with _ | ⟨h1, rest⟩
  · rw [percentOkB_pct_nil] at h
    exact absurd h (by simp)
  rcases rest with _ | ⟨h2, rest2⟩
  · rw [percentOkB_pct_one] at h
    exact absurd h (by simp)
  rw [percentOkB_triplet] at h
  simp only [Bool.and_eq_true] at h
  exact ⟨h1, h2, rest2, rfl, h.1.1, h.1.2, h.2⟩

lemma percentOkB_of_no_pct {s : PyStr} (h : ∀ c ∈ s, c ≠ '%') : percentOkB s = true := by
  induction s with
  | nil => rfl
  | cons c rest ih =>
    rw [percentOkB_cons_ne _ (h c (by simp))]
    exact ih (fun x hx => h x (by simp [hx]))

lemma percentOkB_append_aux : ∀ (n : Nat) (a b : PyStr), a.length ≤ n →
    percentOkB a = true → percentOkB b = true → percentOkB (a ++ b) = true := by
  intro n
  induction n with
  | zero =>
    intro a b hlen ha hb
    have he : a = [] := List.length_eq_zero.mp (Nat.le_zero.mp hlen)
    subst he
    simpa using hb
  | succ n ih =>
    intro a b hlen ha hb
    rcases a with _ | ⟨c, rest⟩
    · simpa using hb
    by_cases hc : c = '%'
    · subst hc
      obtain ⟨h1, h2, r2, rfl, hh1, hh2, hr2⟩ := percentOkB_pct_elim ha
      rw [show ('%' :: h1 :: h2 :: r2) ++ b = '%' :: h1 :: h2 :: (r2 ++ b) from rfl,
        percentOkB_triplet, hh1, hh2,
        ih r2 b (by simp only [List.length_cons] at hlen; omega) hr2 hb]
      rfl
    · rw [List.cons_append, percentOkB_cons_ne _ hc]
      rw [percentOkB_cons_ne _ hc] at ha
      exact ih rest b (by simp only [List.length_cons] at hlen; omega) ha hb

lemma percentOkB_append {a b : PyStr} (ha : percentOkB a = true)
    (hb : percentOkB b = true) : percentOkB (a ++ b) = true :=
  percentOkB_append_aux a.length a b le_rfl ha hb

lemma percentOkB_split_aux : ∀ (n : Nat) (a : PyStr) (d : Char) (b : PyStr), a.length ≤ n →
    isHexDigit d = false → d ≠ '%' → percentOkB (a ++ d :: b) = true →
    percentOkB a = true ∧ percentOkB b = true := by
  intro n
  induction n with
  | zero =>
    intro a d b hlen hd1 hd2 h
    have he : a = [] := List.length_eq_zero.mp (Nat.le_zero.mp hlen)
    subst he
    rw [List.nil_append, percentOkB_cons_ne _ hd2] at h
    exact ⟨rfl, h⟩
  | succ n ih =>
    intro a d b hlen hd1 hd2 h
    rcases a with _ | ⟨c, rest⟩
    · rw [List.nil_append, percentOkB_cons_ne _ hd2] at h
      exact ⟨rfl, h⟩
    by_cases hc : c = '%'
    · subst hc
      rw [show ('%' :: rest) ++ d :: b = '%' :: (rest ++ d :: b) from rfl] at h
      obtain ⟨h1, h2, r2, he, hh1, hh2, hr2⟩ := percentOkB_pct_elim h
      rcases rest with _ | ⟨x1, rest1⟩
      · rw [List.nil_append] at he
        injection he with e1 e2
        rw [← e1] at hh1
        exact absurd hh1 (by simp [hd1])
      rcases rest1 with _ | ⟨x2, rest2⟩
      · rw [show ([x1] : PyStr) ++ d :: b = x1 :: d :: b from rfl] at he
        injection he with e1 he'
        injection he' with e2 e3
        rw [← e2] at hh2
        exact absurd hh2 (by simp [hd1])
      · rw [show (x1 :: x2 :: rest2) ++ d :: b = x1 :: x2 :: (rest2 ++ d :: b) from rfl] at he
        injection he with e1 he'
        injection he' with e2 e3
        rw [← e1] at hh1
        rw [← e2] at hh2
        rw [← e3] at hr2
        obtain ⟨hrest2, hb⟩ := ih rest2 d b
          (by simp only [List.length_cons] at hlen; omega) hd1 hd2 hr2
        refine ⟨?_, hb⟩
        rw [percentOkB_triplet, hh1, hh2, hrest2]
        rfl
    · rw [List.cons_append, percentOkB_cons_ne _ hc] at h
      obtain ⟨hrest, hb⟩ := ih rest d b
        (by simp only [List.length_cons] at hlen; omega) hd1 hd2 h
      refine ⟨?_, hb⟩
      rw [percentOkB_cons_ne _ hc]
      exact hrest

lemma percentOkB_split {a : PyStr} {d : Char} {b : PyStr} (hd1 : isHexDigit d = false)
    (hd2 : d ≠ '%') (h : percentOkB (a ++ d :: b) = true) :
    percentOkB a = true ∧ percentOkB b = true :=
  percentOkB_split_aux a.length a d b le_rfl hd1 hd2 h

lemma hexDigit_clean {c : Char} (hc : isHexDigit c = true) :
    isUnsafeByte c = false ∧ netlocEnd c = false ∧ c ≠ '/' := by
  have hm : c ∈ hexDigits := of_decide_eq_true hc
  have h : hexDigits.all
      (fun c => !isUnsafeByte c && !netlocEnd c && decide (c ≠ '/')) = true := by decide
  have := List.all_eq_true.mp h c hm
  simp only [Bool.and_eq_true, Bool.not_eq_true', decide_eq_true_eq] at this
  exact ⟨this.1.1, this.1.2, this.2⟩

lemma percentOkB_while_aux {p : Char → Bool}
    (hp : p '%' = false ∨ ∀ c, isHexDigit c = true → p c = true) :
    ∀ (n : Nat) (s : PyStr), s.length ≤ n → percentOkB s = true →
      percentOkB (s.takeWhile p) = true ∧ percentOkB (s.dropWhile p) = true := by
  intro n
  induction n with
  | zero =>
    intro s hlen hs
    have he : s = [] := List.length_eq_zero.mp (Nat.le_zero.mp hlen)
    subst he
    exact ⟨rfl, rfl⟩
  | succ n ih =>
    intro s hlen hs
    rcases s with _ | ⟨c, rest⟩
    · exact ⟨rfl, rfl⟩
    by_cases hpc : p c = true
    · by_cases hc : c = '%'
      · subst hc
        rcases hp with hp0 | hphex
        · rw [hp0] at hpc
          exact absurd hpc (by simp)
        obtain ⟨h1, h2, r2, rfl, hh1, hh2, hr2⟩ := percentOkB_pct_elim hs
        have hp1 : p h1 = true := hphex h1 hh1
        have hp2 : p h2 = true := hphex h2 hh2
        obtain ⟨iht, ihd⟩ := ih r2 (by simp only [List.length_cons] at hlen; omega) hr2
        rw [List.takeWhile_cons, if_pos hpc, List.takeWhile_cons, if_pos hp1,
          List.takeWhile_cons, if_pos hp2, List.dropWhile_cons, if_pos hpc,
          List.dropWhile_cons, if_pos hp1, List.dropWhile_cons, if_pos hp2]
        refine ⟨?_, ihd⟩
        rw [percentOkB_triplet, hh1, hh2, iht]
        rfl
      · have hrest : percentOkB rest = true := by
          rw [percentOkB_cons_ne _ hc] at hs
          exact hs
        obtain ⟨iht, ihd⟩ := ih rest (by simp only [List.length_cons] at hlen; omega) hrest
        rw [List.takeWhile_cons, if_pos hpc, List.dropWhile_cons, if_pos hpc]
        refine ⟨?_, ihd⟩
        rw [percentOkB_cons_ne _ hc]
        exact iht
    · have hpc' : p c = false := by simpa using hpc
      rw [List.takeWhile_cons, if_neg (by simp [hpc']), List.dropWhile_cons,
        if_neg (by simp [hpc'])]
      exact ⟨rfl, hs⟩

lemma dropWhile_cases (p : Char → Bool) (s : PyStr) :
    s.dropWhile p = [] ∨ ∃ d t, s.dropWhile p = d :: t ∧ p d = false := by
  induction s with
  | nil => exact Or.inl rfl
  | cons c rest ih =>
    by_cases h : p c = true
    · rw [List.dropWhile_cons, if_pos h]
      exact ih
    · have h' : p c = false := by simpa using h
      right
      exact ⟨c, rest, by rw [List.dropWhile_cons, if_neg (by simp [h'])], h'⟩

lemma percentOkB_tail_dropWhile {p : Char → Bool}
    (hp : ∀ x, isHexDigit x = true → p x = true)
    (hd : ∀ d, p d = false → d ≠ '%') {s : PyStr} (hs : percentOkB s = true) :
    percentOkB ((s.dropWhile p).tail) = true := by
  have hdw := (percentOkB_while_aux (Or.inr hp) s.length s le_rfl hs).2
  rcases dropWhile_cases p s with h | ⟨d, t, he, hpd⟩
  · rw [h]
    rfl
  · rw [he] at hdw
    rw [he, List.tail_cons]
    rw [percentOkB_cons_ne _ (hd d hpd)] at hdw
    exact hdw

lemma percentOkB_filter_aux : ∀ (n : Nat) (s : PyStr), s.length ≤ n →
    percentOkB s = true → percentOkB (s.filter (fun c => !isUnsafeByte c)) = true := by
  intro n
  induction n with
  | zero =>
    intro s hlen hs
    have he : s = [] := List.length_eq_zero.mp (Nat.le_zero.mp hlen)
    subst he
    rfl
  | succ n ih =>
    intro s hlen hs
    rcases s with _ | ⟨c, rest⟩
    · rfl
    by_cases hc : c = '%'
    · subst hc
      obtain ⟨h1, h2, r2, rfl, hh1, hh2, hr2⟩ := percentOkB_pct_elim hs
      rw [List.filter_cons_of_pos (by decide),
        List.filter_cons_of_pos (by simp [(hexDigit_clean hh1).1]),
        List.filter_cons_of_pos (by simp [(hexDigit_clean hh2).1]),
        percentOkB_triplet, hh1, hh2,
        ih r2 (by simp only [List.length_cons] at hlen; omega) hr2]
      rfl
    · have hrest : percentOkB rest = true := by
        rw [percentOkB_cons_ne _ hc] at hs
        exact hs
      have ihr := ih rest (by simp only [List.length_cons] at hlen; omega) hrest
      by_cases hun : isUnsafeByte c = true
      · rw [List.filter_cons_of_neg (by simp [hun])]
        exact ihr
      · have hun' : isUnsafeByte c = false := by simpa using hun
        rw [List.filter_cons_of_pos (by simp [hun']), percentOkB_cons_ne _ hc]
        exact ihr

lemma percentOkB_filter {s : PyStr} (hs : percentOkB s = true) :
    percentOkB (s.filter (fun c => !isUnsafeByte c)) = true :=
  percentOkB_filter_aux s.length s le_rfl hs

lemma schemeSplit_snd_percentOk {s : PyStr} (hs : percentOkB s = true) :
    percentOkB (schemeSplit s).2 = true := by
  rcases s with _ | ⟨c, rest⟩
  · rfl
  rw [schemeSplit_cons]
  split
  · refine percentOkB_tail_dropWhile ?_ ?_ hs
    · intro x hx
      refine bne_iff_ne.mpr (fun he => ?_)
      rw [he] at hx
      exact absurd hx (by decide)
    · intro d hd
      have hdc : d = ':' := by simpa using hd
      rw [hdc]
      decide
  · exact hs

lemma splitOnceAt_percentOk (c : Char) (hc1 : isHexDigit c = false) (hc2 : c ≠ '%')
    {s : PyStr} (hs : percentOkB s = true) :
    percentOkB (splitOnceAt c s).1 = true ∧ percentOkB (splitOnceAt c s).2 = true := by
  have hp : ∀ x, isHexDigit x = true → ((fun x => x != c) x) = true := by
    intro x hx
    refine bne_iff_ne.mpr (fun he => ?_)
    rw [he] at hx
    exact absurd hx (by simp [hc1])
  by_cases hm : c ∈ s
  · rw [splitOnceAt, if_pos hm]
    refine ⟨(percentOkB_while_aux (Or.inr hp) s.length s le_rfl hs).1, ?_⟩
    refine percentOkB_tail_dropWhile hp (fun d hd => ?_) hs
    have hdc : d = c := by simpa using hd
    rw [hdc]
    exact hc2
  · rw [splitOnceAt_not_mem hm]
    exact ⟨hs, rfl⟩

lemma pyUrlsplit_percentOk {u : PyStr} (hu : percentOkB u = true) :
    percentOkB (pyUrlsplit u).netloc = true ∧ percentOkB (pyUrlsplit u).path = true ∧
    percentOkB (pyUrlsplit u).query = true ∧ percentOkB (pyUrlsplit u).fragment = true := by
  have hok2 : percentOkB ((u.dropWhile isC0OrSpace).filter (fun c => !isUnsafeByte c))
      = true := by
    apply percentOkB_filter
    exact (percentOkB_while_aux (Or.inl (by decide)) u.length u le_rfl hu).2
  set url2 := ((u.dropWhile isC0OrSpace).filter (fun c => !isUnsafeByte c)) with hu2
  set sr := schemeSplit url2 with hsr
  set nr := if sr.2.take 2 = ['/', '/'] then splitnetloc (sr.2.drop 2) else ([], sr.2)
    with hnr
  set fr := splitOnceAt '#' nr.2 with hfr
  set qr := splitOnceAt '?' fr.1 with hqr
  have hrec : pyUrlsplit u = ⟨sr.1, nr.1, qr.1, [], qr.2, fr.2⟩ := rfl
  have hsr2ok : percentOkB sr.2 = true := by
    rw [hsr]
    exact schemeSplit_snd_percentOk hok2
  have hdropok : sr.2.take 2 = ['/', '/'] → percentOkB (sr.2.drop 2) = true := by
    intro htake
    rcases hs2 : sr.2 with _ | ⟨a, t⟩
    · rw [hs2] at htake
      simp at htake
    rcases t with _ | ⟨b, t2⟩
    · rw [hs2] at htake
      simp [List.take] at htake
    rw [hs2] at htake hsr2ok
    obtain ⟨ha, hb⟩ : a = '/' ∧ b = '/' := by simpa [List.take] using htake
    subst ha
    subst hb
    rw [percentOkB_cons_ne _ (by decide), percentOkB_cons_ne _ (by decide)] at hsr2ok
    simpa using hsr2ok
  have hnetp : ∀ x : Char, isHexDigit x = true → (!netlocEnd x) = true := by
    intro x hx
    simp [(hexDigit_clean hx).2.1]
  have hnr1ok : percentOkB nr.1 = true := by
    rw [hnr]
    split
    case isTrue htake =>
      exact (percentOkB_while_aux (Or.inr hnetp) (sr.2.drop 2).length _ le_rfl
        (hdropok htake)).1
    case isFalse => rfl
  have hnr2ok : percentOkB nr.2 = true := by
    rw [hnr]
    split
    case isTrue htake =>
      exact (percentOkB_while_aux (Or.inr hnetp) (sr.2.drop 2).length _ le_rfl
        (hdropok htake)).2
    case isFalse => exact hsr2ok
  have hfrok : percentOkB fr.1 = true ∧ percentOkB fr.2 = true := by
    rw [hfr]
    exact splitOnceAt_percentOk '#' (by decide) (by decide) hnr2ok
  have hqrok : percentOkB qr.1 = true ∧ percentOkB qr.2 = true := by
    rw [hqr]
    exact splitOnceAt_percentOk '?' (by decide) (by decide) hfrok.1
  rw [hrec]
  exact ⟨hnr1ok, hqrok.1, hqrok.2, hfrok.2⟩

lemma splitparams_decomp (s : PyStr) :
    splitparams s = (s, []) ∨ ∃ x y, splitparams s = (x, y) ∧ s = x ++ ';' :: y := by
  have hsplit : (s.reverse.dropWhile (fun c => c != '/')).reverse
      ++ (s.reverse.takeWhile (fun c => c != '/')).reverse = s := by
    rw [← List.reverse_append, List.takeWhile_append_dropWhile, List.reverse_reverse]
  rw [splitparams]
  dsimp only
  split
  · split
    case isTrue hb =>
      obtain ⟨x, y, hbe, hnx⟩ := exists_split_first hb
      have hall : ∀ t ∈ x, ((fun c => c != ';') t) = true :=
        fun t ht => bne_iff_ne.mpr (fun he => hnx (he ▸ ht))
      right
      refine ⟨(s.reverse.dropWhile (fun c => c != '/')).reverse ++ x, y, ?_, ?_⟩
      · rw [hbe, takeWhile_append_stop _ hall (by simp),
          dropWhile_append_stop _ hall (by simp)]
        rfl
      · conv_lhs => rw [← hsplit]
        rw [hbe]
        simp [List.append_assoc]
    case isFalse => exact Or.inl rfl
  · split
    case isTrue hb =>
      obtain ⟨x, y, hbe, hnx⟩ := exists_split_first hb
      have hall : ∀ t ∈ x, ((fun c => c != ';') t) = true :=
        fun t ht => bne_iff_ne.mpr (fun he => hnx (he ▸ ht))
      right
      refine ⟨x, y, ?_, hbe⟩
      rw [hbe, takeWhile_append_stop _ hall (by simp),
        dropWhile_append_stop _ hall (by simp)]
      rfl
    case isFalse => exact Or.inl rfl

lemma pyUrlparse_percentOk {u : PyStr} (hu : percentOkB u = true) :
    percentOkB (pyUrlparse u).netloc = true ∧ percentOkB (pyUrlparse u).path = true ∧
    percentOkB (pyUrlparse u).params = true ∧ percentOkB (pyUrlparse u).query = true ∧
    percentOkB (pyUrlparse u).fragment = true := by
  obtain ⟨hn, hp, hq, hf⟩ := pyUrlsplit_percentOk hu
  rw [pyUrlparse]
  split
  · rcases splitparams_decomp (pyUrlsplit u).path with he | ⟨x, y, he, hdec⟩
    · refine ⟨hn, ?_, ?_, hq, hf⟩
      · show percentOkB (splitparams (pyUrlsplit u).path).1 = true
        rw [he]
        exact hp
      · show percentOkB (splitparams (pyUrlsplit u).path).2 = true
        rw [he]
        rfl
    · rw [hdec] at hp
      obtain ⟨h1, h2⟩ := percentOkB_split (by decide) (by decide) hp
      refine ⟨hn, ?_, ?_, hq, hf⟩
      · show percentOkB (splitparams (pyUrlsplit u).path).1 = true
        rw [he]
        exact h1
      · show percentOkB (splitparams (pyUrlsplit u).path).2 = true
        rw [he]
        exact h2
  · refine ⟨hn, hp, ?_, hq, hf⟩
    rw [(pyUrlsplit_inv u).2.2.2.1]
    rfl

lemma percentOkB_splitSlash_aux : ∀ (n : Nat) (p : PyStr), p.length ≤ n →
    percentOkB p = true → ∀ s ∈ splitSlash p, percentOkB s = true := by
  intro n
  induction n with
  | zero =>
    intro p hlen hp s hs
    have he : p = [] := List.length_eq_zero.mp (Nat.le_zero.mp hlen)
    subst he
    simp [splitSlash] at hs
    subst hs
    rfl
  | succ n ih =>
    intro p hlen hp s hs
    rcases p with _ | ⟨c, rest⟩
    · simp [splitSlash] at hs
      subst hs
      rfl
    by_cases hc : c = '%'
    · subst hc
      obtain ⟨h1, h2, r2, rfl, hh1, hh2, hr2⟩ := percentOkB_pct_elim hp
      have hne1 : h1 ≠ '/' := (hexDigit_clean hh1).2.2
      have hne2 : h2 ≠ '/' := (hexDigit_clean hh2).2.2
      rcases hr : splitSlash r2 with _ | ⟨s0, ss⟩
      · exact absurd hr (splitSlash_ne_nil r2)
      have e2 : splitSlash (h2 :: r2) = (h2 :: s0) :: ss := splitSlash_cons_ne r2 hne2 s0 ss hr
      have e1 : splitSlash (h1 :: h2 :: r2) = (h1 :: h2 :: s0) :: ss :=
        splitSlash_cons_ne _ hne1 _ _ e2
      have e0 : splitSlash ('%' :: h1 :: h2 :: r2) = ('%' :: h1 :: h2 :: s0) :: ss :=
        splitSlash_cons_ne _ (by decide) _ _ e1
      rw [e0] at hs
      have hlen2 : r2.length ≤ n := by simp only [List.length_cons] at hlen; omega
      rcases List.mem_cons.mp hs with hs | hs
      · subst hs
        have hs0 : percentOkB s0 = true :=
          ih r2 hlen2 hr2 s0 (by rw [hr]; exact List.mem_cons_self _ _)
        rw [percentOkB_triplet, hh1, hh2, hs0]
        rfl
      · exact ih r2 hlen2 hr2 s (by rw [hr]; exact List.mem_cons_of_mem _ hs)
    · have hrest : percentOkB rest = true := by
        rw [percentOkB_cons_ne _ hc] at hp
        exact hp
      have hlen' : rest.length ≤ n := by simp only [List.length_cons] at hlen; omega
      by_cases hsl : c = '/'
      · subst hsl
        rw [splitSlash_cons_slash] at hs
        rcases List.mem_cons.mp hs with hs | hs
        · rw [hs]
          rfl
        · exact ih rest hlen' hrest s hs
      · rcases hr : splitSlash rest with _ | ⟨s0, ss⟩
        · exact absurd hr (splitSlash_ne_nil rest)
        rw [splitSlash_cons_ne rest hsl s0 ss hr] at hs
        rcases List.mem_cons.mp hs with hs | hs
        · subst hs
          rw [percentOkB_cons_ne _ hc]
          exact ih rest hlen' hrest s0 (by rw [hr]; exact List.mem_cons_self _ _)
        · exact ih rest hlen' hrest s (by rw [hr]; exact List.mem_cons_of_mem _ hs)

lemma percentOkB_joinSlash {l : List PyStr} (h : ∀ s ∈ l, percentOkB s = true) :
    percentOkB (joinSlash l) = true := by
  induction l with
  | nil => rfl
  | cons s t ih =>
    cases t with
    | nil => exact h s (by simp)
    | cons v rest =>
      rw [joinSlash]
      apply percentOkB_append (h s (by simp))
      rw [percentOkB_cons_ne _ (by decide)]
      exact ih (fun x hx => h x (List.mem_cons_of_mem s hx))

lemma percentOkB_canonPath {p : PyStr} (hp : percentOkB p = true) :
    percentOkB (canonPath p) = true := by
  rw [canonPath_eq]
  apply percentOkB_joinSlash
  intro s hs
  have h1 : s ∈ rawSegs p := (List.mem_filter.mp hs).1
  have h2 : s ∈ splitSlash p := (List.mem_filter.mp h1).1
  exact percentOkB_splitSlash_aux p.length p le_rfl hp s h2

lemma percentOkB_unsplit_base {N U : PyStr} (hN : percentOkB N = true)
    (hU : percentOkB U = true) : percentOkB (pyUrlunsplit [] N U [] []) = true := by
  rw [pyUrlunsplit]
  dsimp only
  rw [if_neg (by simp), if_neg (by simp), if_neg (by simp)]
  split
  · apply percentOkB_append (percentOkB_append (by decide) hN)
    split
    · rw [percentOkB_cons_ne _ (by decide)]
      exact hU
    · exact hU
  · exact hU

lemma pyUrlsplit_chars (u : PyStr) :
    (∀ c ∈ (pyUrlsplit u).netloc, c ∈ u) ∧ (∀ c ∈ (pyUrlsplit u).path, c ∈ u) ∧
    (∀ c ∈ (pyUrlsplit u).query, c ∈ u) ∧ (∀ c ∈ (pyUrlsplit u).fragment, c ∈ u) := by
  have hurl2 : (((u.dropWhile isC0OrSpace).filter (fun c => !isUnsafeByte c))).Sublist u :=
    (List.filter_sublist _).trans (List.dropWhile_sublist _)
  set url2 := ((u.dropWhile isC0OrSpace).filter (fun c => !isUnsafeByte c)) with hu2
  set sr := schemeSplit url2 with hsr
  set nr := if sr.2.take 2 = ['/', '/'] then splitnetloc (sr.2.drop 2) else ([], sr.2)
    with hnr
  set fr := splitOnceAt '#' nr.2 with hfr
  set qr := splitOnceAt '?' fr.1 with hqr
  have hrec : pyUrlsplit u = ⟨sr.1, nr.1, qr.1, [], qr.2, fr.2⟩ := rfl
  have hsr2 : sr.2.Sublist url2 := schemeSplit_snd_sublist url2
  have hnr1 : nr.1.Sublist url2 := by
    rw [hnr]
    split
    · exact ((List.takeWhile_sublist _).trans (List.drop_sublist _ _)).trans hsr2
    · simp
  have hnr2 : nr.2.Sublist url2 := by
    rw [hnr]
    split
    · exact ((List.dropWhile_sublist _).trans (List.drop_sublist _ _)).trans hsr2
    · exact hsr2
  have hfr1 : fr.1.Sublist nr.2 := splitOnceAt_fst_sublist '#' nr.2
  have hfr2 : fr.2.Sublist nr.2 := splitOnceAt_snd_sublist '#' nr.2
  have hqr1 : qr.1.Sublist fr.1 := splitOnceAt_fst_sublist '?' fr.1
  have hqr2 : qr.2.Sublist fr.1 := splitOnceAt_snd_sublist '?' fr.1
  rw [hrec]
  exact ⟨fun c hc => hurl2.mem (hnr1.mem hc),
    fun c hc => hurl2.mem (((hqr1.trans hfr1).trans hnr2).mem hc),
    fun c hc => hurl2.mem (((hqr2.trans hfr1).trans hnr2).mem hc),
    fun c hc => hurl2.mem ((hfr2.trans hnr2).mem hc)⟩

lemma pyUrlparse_chars (u : PyStr) :
    (∀ c ∈ (pyUrlparse u).netloc, c ∈ u) ∧ (∀ c ∈ (pyUrlparse u).path, c ∈ u) ∧
    (∀ c ∈ (pyUrlparse u).params, c ∈ u) ∧ (∀ c ∈ (pyUrlparse u).query, c ∈ u) ∧
    (∀ c ∈ (pyUrlparse u).fragment, c ∈ u) := by
  obtain ⟨hn, hp, hq, hf⟩ := pyUrlsplit_chars u
  rw [pyUrlparse]
  split
  · have hsub := splitparams_sublists (pyUrlsplit u).path
    exact ⟨hn, fun c hc => hp c (hsub.1.mem hc), fun c hc => hp c (hsub.2.mem hc), hq, hf⟩
  · refine ⟨hn, hp, ?_, hq, hf⟩
    intro c hc
    rw [(pyUrlsplit_inv u).2.2.2.1] at hc
    simp at hc

lemma schemeChars_uriFacts {c : Char} (hc : c ∈ schemeChars) :
    c ∈ uriChars ∧ c ≠ '%' := by
  have h : schemeChars.all (fun c => decide (c ∈ uriChars) && decide (c ≠ '%')) = true := by
    decide
  have := List.all_eq_true.mp h c hc
  simp only [Bool.and_eq_true, decide_eq_true_eq] at this
  exact this

lemma canonQuery_uri (p2 : PyStr) :
    (∀ c ∈ canonQuery p2, c ∈ uriChars) ∧ percentOkB (canonQuery p2) = true := by
  rw [canonQuery]
  split <;> exact ⟨by decide, by decide⟩

lemma specAbsoluteUrl_intro {S : PyStr} (Y : PyStr) (hS : SchemeOK S) (hSne : S ≠ [])
    (hYu : ∀ c ∈ Y, c ∈ uriChars) (hYp : percentOkB Y = true) :
    specAbsoluteUrl (S ++ ':' :: Y) = true := by
  obtain ⟨c, t, rfl⟩ : ∃ c t, S = c :: t := by
    cases S with
    | nil => exact absurd rfl hSne
    | cons c t => exact ⟨c, t, rfl⟩
  obtain ⟨hchars, _, hhead⟩ := hS
  have hne : ∀ x ∈ c :: t, (x != ':') = true :=
    fun x hx => bne_iff_ne.mpr (schemeChars_facts (hchars x hx)).1
  rw [show (c :: t) ++ ':' :: Y = c :: (t ++ ':' :: Y) from rfl, specAbsoluteUrl]
  have h1 : isAsciiAlpha c = true := by
    simpa [isAsciiAlpha] using hhead c rfl
  have h2 : (':' : Char) ∈ c :: (t ++ ':' :: Y) := by simp
  have h3 : (c :: (t ++ ':' :: Y)).takeWhile (fun x => x != ':') = c :: t := by
    rw [show c :: (t ++ ':' :: Y) = (c :: t) ++ ':' :: Y from rfl]
    exact takeWhile_append_stop Y hne (by simp)
  rw [h3]
  have h4 : (c :: t).all isSchemeChar = true :=
    List.all_eq_true.mpr (fun x hx => by simpa [isSchemeChar] using hchars x hx)
  have h5 : (c :: (t ++ ':' :: Y)).all isUriChar = true := by
    apply List.all_eq_true.mpr
    intro x hx
    rw [show c :: (t ++ ':' :: Y) = (c :: t) ++ ':' :: Y from rfl] at hx
    rcases List.mem_append.mp hx with hx | hx
    · simpa [isUriChar] using (schemeChars_uriFacts (hchars x hx)).1
    · rcases List.mem_cons.mp hx with hx | hx
      · rw [hx]
        decide
      · simpa [isUriChar] using hYu x hx
  have h6 : percentOkB (c :: (t ++ ':' :: Y)) = true := by
    rw [show c :: (t ++ ':' :: Y) = (c :: t) ++ ':' :: Y from rfl]
    apply percentOkB_append
    · exact percentOkB_of_no_pct (fun x hx => (schemeChars_uriFacts (hchars x hx)).2)
    · rw [percentOkB_cons_ne _ (by decide)]
      exact hYp
  simp [h1, h2, h4, h5, h6]

lemma unsplit_scheme_cons (S N U : PyStr) (hS : S ≠ []) :
    pyUrlunsplit S N U [] [] = S ++ ':' :: pyUrlunsplit [] N U [] [] := by
  unfold pyUrlunsplit
  simp [hS]

lemma pyReplace_no_http (s : PyStr) : ∀ a b : PyStr,
    pyReplace s ("http:".toList) ("https:".toList) ≠ a ++ ("http:".toList) ++ b := by
  intro a b
  rw [pyReplace, if_neg (by decide)]
  have e1 : ("http:".toList : PyStr) = ['h', 't', 't', 'p', ':'] := by decide
  have e2 : ("https:".toList : PyStr) = ['h', 't', 't', 'p', 's', ':'] := by decide
  rw [e1, e2]
  simpa only [List.append_assoc, List.cons_append, List.nil_append] using
    replaceAux_no_http s.length s a b

/-! ### Claim theorems -/

/-- C1, counterexample: the claim "sanitize_url is idempotent on every input
with non-empty output" fails.  For the input `http://x/feed;b/feed` the
output is `http://x/feed;b?do=rss` (non-empty), but a second application
yields `http://x/;b?do=rss`: urlparse splits `;b` off as params on the second
pass, and the remaining `feed` segment is removed. -/
theorem c1_counterexample :
    sanitize_url ("http://x/feed;b/feed".toList) ≠ [] ∧
    sanitize_url (sanitize_url ("http://x/feed;b/feed".toList))
      ≠ sanitize_url ("http://x/feed;b/feed".toList) := by
  constructor <;> decide

/-- C1, amended: for every URL whose parse has a non-empty authority (netloc)
and whose parsed path contains no `;`, the output of sanitize_url is
non-empty and sanitize_url is idempotent on it. -/
theorem c1_idempotent_amended (u : PyStr)
    (hN : (pyUrlsplit u).netloc ≠ []) (hsemi : ¬ ';' ∈ (pyUrlsplit u).path) :
    sanitize_url u ≠ [] ∧ sanitize_url (sanitize_url u) = sanitize_url u := by
  have hu : u ≠ [] := by
    intro h
    apply hN
    rw [h]
    decide
  exact ⟨sanitize_ne_nil hu, sanitize_idem hN hsemi⟩

/-- C1, witness at a concrete input. -/
theorem c1_witness :
    sanitize_url ("https://example.org/feed/atom".toList) ≠ [] ∧
    sanitize_url (sanitize_url ("https://example.org/feed/atom".toList))
      = sanitize_url ("https://example.org/feed/atom".toList) :=
  c1_idempotent_amended ("https://example.org/feed/atom".toList)
    (by decide) (by decide)

/-- C2: evaluating the code on the doctest input
`https://example.org/shaarli/feed/feed/rss` gives
`https://example.org/shaarli?do=rss` — the removal loop removes every
occurrence of `feed` — whereas the claim (and the module's own doctest)
expects `https://example.org/shaarli/feed?do=rss`. -/
theorem c2_code_behavior :
    sanitize_url ("https://example.org/shaarli/feed/feed/rss".toList)
      = ("https://example.org/shaarli?do=rss".toList) := by decide

/-- C3: the segments of the canonical path are exactly the segments of the
parsed input path with every member of UNWANTED_URL_PATH_PARTS removed (all
occurrences, exact segment equality, others kept in order), and no unwanted
segment survives in the canonical path. -/
theorem c3_segment_removal (u : PyStr) (_hu : u ≠ []) :
    rawSegs (canonPath (pyUrlparse u).path)
      = (rawSegs (pyUrlparse u).path).filter
        (fun s => decide (¬ s ∈ UNWANTED_URL_PATH_PARTS)) ∧
    ∀ s ∈ rawSegs (canonPath (pyUrlparse u).path), ¬ s ∈ UNWANTED_URL_PATH_PARTS := by
  constructor
  · rw [rawSegs_canonPath]
    rfl
  · intro s hs
    rw [rawSegs_canonPath] at hs
    simpa using (mem_canonSegs hs).2.2

/-- C3, witness at a concrete input. -/
theorem c3_witness :
    rawSegs (canonPath (pyUrlparse ("https://example.org/shaarli/feed/feed/rss".toList)).path)
      = (rawSegs (pyUrlparse ("https://example.org/shaarli/feed/feed/rss".toList)).path).filter
        (fun s => decide (¬ s ∈ UNWANTED_URL_PATH_PARTS)) ∧
    ∀ s ∈ rawSegs (canonPath
        (pyUrlparse ("https://example.org/shaarli/feed/feed/rss".toList)).path),
      ¬ s ∈ UNWANTED_URL_PATH_PARTS :=
  c3_segment_removal ("https://example.org/shaarli/feed/feed/rss".toList) (by decide)

/-- C4: for every non-empty input, the query of the reparsed output of
sanitize_url is exactly `mode=links&do=rss` when the canonical path ends in
`rss.php` and exactly `do=rss` otherwise; no other query value ever occurs. -/
theorem c4_query_total (u : PyStr) (hu : u ≠ []) :
    (pyUrlparse (sanitize_url u)).query
      = (if ("rss.php".toList).isSuffixOf (canonPath (pyUrlparse u).path)
        then "mode=links&do=rss".toList else "do=rss".toList) ∧
    ((pyUrlparse (sanitize_url u)).query = "mode=links&do=rss".toList ∨
      (pyUrlparse (sanitize_url u)).query = "do=rss".toList) := by
  obtain ⟨-, -, -, -, -, -, -, -, -, -, -, -, hqe, -⟩ := pyUrlparse_inv (sanitize_url u)
  have h1 := (sanitize_reparse_query_frag hu).1
  rw [hqe, h1]
  constructor
  · rw [canonQuery]
  · rw [canonQuery]
    split
    · exact Or.inl rfl
    · exact Or.inr rfl

/-- C4, witness at a concrete input. -/
theorem c4_witness :
    (pyUrlparse (sanitize_url ("https://example.org/rss.php?kw=1".toList))).query
      = (if ("rss.php".toList).isSuffixOf
          (canonPath (pyUrlparse ("https://example.org/rss.php?kw=1".toList)).path)
        then "mode=links&do=rss".toList else "do=rss".toList) ∧
    ((pyUrlparse (sanitize_url ("https://example.org/rss.php?kw=1".toList))).query
        = "mode=links&do=rss".toList ∨
      (pyUrlparse (sanitize_url ("https://example.org/rss.php?kw=1".toList))).query
        = "do=rss".toList) :=
  c4_query_total ("https://example.org/rss.php?kw=1".toList) (by decide)

/-- C5: the printed candidates of main are exactly the members of
(manual ∪ discovered₁ ∪ ...) − current − bad that are non-empty and whose
scheme-swapped variants are not in current (membership tested against current
only); each is printed once and the final count equals the number printed. -/
theorem c5_reconciler (currentRaw badRaw manualRaw : List PyStr)
    (discovered : List (List PyStr)) :
    (∀ v : PyStr, v ∈ (mainModel currentRaw badRaw manualRaw discovered).1 ↔
      ((v ∈ manualRaw.map sanitize_url ∨ v ∈ (discovered.flatten).map sanitize_url) ∧
        ¬ v ∈ currentRaw.map sanitize_url ∧ ¬ v ∈ badRaw.map sanitize_url ∧
        v ≠ [] ∧ ¬ swapToHttps v ∈ currentRaw.map sanitize_url ∧
        ¬ swapToHttp v ∈ currentRaw.map sanitize_url)) ∧
    (mainModel currentRaw badRaw manualRaw discovered).2
      = (mainModel currentRaw badRaw manualRaw discovered).1.length ∧
    (mainModel currentRaw badRaw manualRaw discovered).1.Nodup := by
  unfold mainModel
  dsimp only
  rw [mainLoop_eq]
  refine ⟨?_, rfl, ?_⟩
  · intro v
    simp only [List.mem_filter, List.mem_dedup, List.mem_append, decide_eq_true_eq,
      keepFeed_iff, pySet, List.mem_dedup]
    tauto
  · exact List.Nodup.filter _ (List.Nodup.filter _ (List.nodup_dedup _))

/-- C7: a truncated read is not an error: get_dynamic_feeds on an
IncompleteRead with partial data behaves exactly as on a complete read of the
same data; a parsed json payload yields the canonicalized URL set, a
structurally invalid one propagates the parse failure, and the opml branch
always scans whatever bytes arrived. -/
theorem c7_truncated_read (jsonLoads : PyStr → Option (List PyStr))
    (kind : FeedKind) (d : PyStr) :
    getDynamicFeeds jsonLoads kind (ReadOutcome.incompleteRead d)
      = getDynamicFeeds jsonLoads kind (ReadOutcome.complete d) ∧
    (∀ urls, jsonLoads d = some urls →
      getDynamicFeeds jsonLoads FeedKind.json (ReadOutcome.incompleteRead d)
        = some (pySet (urls.map sanitize_url))) ∧
    (jsonLoads d = none →
      getDynamicFeeds jsonLoads FeedKind.json (ReadOutcome.incompleteRead d) = none) ∧
    getDynamicFeeds jsonLoads FeedKind.opml (ReadOutcome.incompleteRead d)
      = some (pySet ((opmlFindall d).map sanitize_url)) := by
  refine ⟨rfl, ?_, ?_, rfl⟩
  · intro urls h
    simp [getDynamicFeeds, readData, h]
  · intro h
    simp [getDynamicFeeds, readData, h]

/-- C7, witness: a concrete parser and a concrete truncated payload. -/
theorem c7_witness :
    getDynamicFeeds (fun s => if s = [] then none else some [s]) FeedKind.json
        (ReadOutcome.incompleteRead ("https://example.org/feed".toList))
      = some (pySet ([("https://example.org/feed".toList : PyStr)].map sanitize_url)) :=
  (c7_truncated_read (fun s => if s = [] then none else some [s]) FeedKind.json
      ("https://example.org/feed".toList)).2.1
    [("https://example.org/feed".toList : PyStr)] (by decide)

/-- C8: sanitize_url only rewrites path and query: the input's fragment is
recovered verbatim from the output; with a non-empty authority and a
params-free path the scheme, netloc and params are recovered unchanged by
reparsing; the output is the unparse of the input's components with only path
and query replaced; a fragment reappears verbatim after the replaced query. -/
theorem c8_frame (u : PyStr) (hu : u ≠ []) :
    (pyUrlparse (sanitize_url u)).fragment = (pyUrlparse u).fragment ∧
    ((pyUrlsplit u).netloc ≠ [] → ¬ ';' ∈ (pyUrlsplit u).path →
      (pyUrlparse (sanitize_url u)).scheme = (pyUrlparse u).scheme ∧
      (pyUrlparse (sanitize_url u)).netloc = (pyUrlparse u).netloc ∧
      (pyUrlparse (sanitize_url u)).params = (pyUrlparse u).params) ∧
    sanitize_url u = pyUrlunparse { pyUrlparse u with
      path := if canonPath (pyUrlparse u).path = [] then ['/']
        else canonPath (pyUrlparse u).path,
      query := canonQuery (canonPath (pyUrlparse u).path) } ∧
    sanitize_url ("https://example.org/feed#top".toList)
      = ("https://example.org/?do=rss#top".toList) := by
  obtain ⟨-, -, -, -, -, -, -, -, -, -, hse, hne, -, hfe⟩ := pyUrlparse_inv (sanitize_url u)
  refine ⟨?_, ?_, sanitize_eq hu, by decide⟩
  · rw [hfe]
    exact (sanitize_reparse_query_frag hu).2
  · intro hN hsemi
    have hPe : pyUrlparse u = pyUrlsplit u := pyUrlparse_eq_split hsemi
    have hpar : (pyUrlsplit u).params = [] := (pyUrlsplit_inv u).2.2.2.1
    have hsplit1 := sanitize_reparse_split hN hsemi
    have hsemi1 : ¬ ';' ∈ (pyUrlsplit (sanitize_url u)).path := by
      rw [hsplit1]
      intro hm
      rcases List.mem_cons.mp hm with h | h
      · exact absurd h (by decide)
      · rcases mem_canonPath_chars h with h' | ⟨h', _⟩
        · exact absurd h' (by decide)
        · exact hsemi h'
    have hPe1 : pyUrlparse (sanitize_url u) = pyUrlsplit (sanitize_url u) :=
      pyUrlparse_eq_split hsemi1
    rw [hPe1, hsplit1, hPe, hpar]
    exact ⟨rfl, rfl, rfl⟩

/-- C8, witness at a concrete input. -/
theorem c8_witness :
    (pyUrlparse (sanitize_url ("https://example.org/feed#top".toList))).fragment
      = (pyUrlparse ("https://example.org/feed#top".toList)).fragment ∧
    ((pyUrlparse (sanitize_url ("https://example.org/feed#top".toList))).scheme
        = (pyUrlparse ("https://example.org/feed#top".toList)).scheme ∧
      (pyUrlparse (sanitize_url ("https://example.org/feed#top".toList))).netloc
        = (pyUrlparse ("https://example.org/feed#top".toList)).netloc ∧
      (pyUrlparse (sanitize_url ("https://example.org/feed#top".toList))).params
        = (pyUrlparse ("https://example.org/feed#top".toList)).params) :=
  ⟨(c8_frame ("https://example.org/feed#top".toList) (by decide)).1,
    (c8_frame ("https://example.org/feed#top".toList) (by decide)).2.1
      (by decide) (by decide)⟩

/-- C6, counterexample: the claim that every non-empty input yields a
syntactically valid absolute URL fails twice over: the non-empty input `x`
yields `x?do=rss`, which has no scheme at all, and the input `http://a b/c`,
whose parse does have a scheme, yields `http://a b/c?do=rss`, which carries
raw spaces outside the RFC 3986 URI character set. -/
theorem c6_counterexample :
    ("x".toList : PyStr) ≠ [] ∧
    sanitize_url ("x".toList) = ("x?do=rss".toList) ∧
    specAbsoluteUrl (sanitize_url ("x".toList)) = false ∧
    (pyUrlparse ("http://a b/c".toList)).scheme ≠ [] ∧
    sanitize_url ("http://a b/c".toList) = ("http://a b/c?do=rss".toList) ∧
    specAbsoluteUrl (sanitize_url ("http://a b/c".toList)) = false := by
  refine ⟨by decide, by decide, by decide, by decide, by decide, by decide⟩

/-- C6, amended: sanitize_url of the empty string is the empty string; the
output is empty only when the input is empty (every non-empty input yields a
non-empty output); and every input that parses with a non-empty scheme and
consists solely of RFC 3986 URI characters with well-formed percent-escapes
yields a syntactically valid absolute URL.  (Both restrictions are necessary:
sanitize_url neither supplies a missing scheme nor encodes characters that
are invalid in a URL, as `c6_counterexample` shows.) -/
theorem c6_output_shape_amended :
    sanitize_url [] = [] ∧
    (∀ u : PyStr, u ≠ [] → sanitize_url u ≠ []) ∧
    (∀ u : PyStr, (pyUrlparse u).scheme ≠ [] → (∀ c ∈ u, c ∈ uriChars) →
      percentOkB u = true → specAbsoluteUrl (sanitize_url u) = true) := by
  refine ⟨rfl, fun u hu => sanitize_ne_nil hu, ?_⟩
  intro u hscheme huri hpct
  have hu : u ≠ [] := by
    intro h
    rw [h] at hscheme
    exact hscheme (by decide)
  obtain ⟨-, -, -, -, -, -, -, -, -, hS, -, -, -, -⟩ := pyUrlparse_inv u
  obtain ⟨hcn, hcp, hcpr, -, hcf⟩ := pyUrlparse_chars u
  obtain ⟨hpn, hpp, hppr, -, hpf⟩ := pyUrlparse_percentOk hpct
  rw [sanitize_shape hu, unsplit_scheme_cons _ _ _ hscheme, List.append_assoc,
    List.cons_append]
  refine specAbsoluteUrl_intro _ hS hscheme ?_ ?_
  · intro c hc
    rcases List.mem_append.mp hc with h | h
    · rcases pyUrlunsplit_base_chars h with h | h | h | h | h
      · simp at h
      · exact huri c (hcn c h)
      · have hpathu : ∀ x ∈ (if canonPath (pyUrlparse u).path = [] then ['/']
            else canonPath (pyUrlparse u).path), x ∈ uriChars := by
          intro x hx
          split at hx
          · have hxe : x = '/' := by simpa using hx
            rw [hxe]
            decide
          · rcases mem_canonPath_chars hx with h' | ⟨h', -⟩
            · rw [h']
              decide
            · exact huri x (hcp x h')
        split at h
        · rcases List.mem_append.mp h with h' | h'
          · exact hpathu c h'
          · rcases List.mem_cons.mp h' with h' | h'
            · rw [h']
              decide
            · exact huri c (hcpr c h')
        · exact hpathu c h
      · rw [h]
        decide
      · rw [h]
        decide
    · rcases List.mem_cons.mp h with h | h
      · rw [h]
        decide
      · rcases List.mem_append.mp h with h | h
        · exact (canonQuery_uri _).1 c h
        · split at h
          · simp at h
          · rcases List.mem_cons.mp h with h | h
            · rw [h]
              decide
            · exact huri c (hcf c h)
  · apply percentOkB_append
    · apply percentOkB_unsplit_base hpn
      have hpathp : percentOkB (if canonPath (pyUrlparse u).path = [] then ['/']
          else canonPath (pyUrlparse u).path) = true := by
        split
        · decide
        · exact percentOkB_canonPath hpp
      split
      · apply percentOkB_append hpathp
        rw [percentOkB_cons_ne _ (by decide)]
        exact hppr
      · exact hpathp
    · rw [percentOkB_cons_ne _ (by decide)]
      apply percentOkB_append
      · exact (canonQuery_uri _).2
      · split
        · rfl
        · rw [percentOkB_cons_ne _ (by decide)]
          exact hpf

/-- C6, witness at a concrete input. -/
theorem c6_witness :
    sanitize_url ("https://example.org/feed".toList) ≠ [] ∧
    specAbsoluteUrl (sanitize_url ("https://example.org/feed".toList)) = true :=
  ⟨c6_output_shape_amended.2.1 ("https://example.org/feed".toList) (by decide),
    c6_output_shape_amended.2.2 ("https://example.org/feed".toList) (by decide)
      (by decide) (by decide)⟩

/-- C9: the scheme-swap test of main substitutes every occurrence of
`http:` anywhere in the candidate, not only the leading scheme: no occurrence
of `http:` survives the substitution for any string; a URL embedding another
scheme in its path has both rewritten; and a candidate whose fully rewritten
variant is in the current set is excluded by the reconciler. -/
theorem c9_swap_rewrites_all :
    (∀ s a b : PyStr,
      pyReplace s ("http:".toList) ("https:".toList) ≠ a ++ ("http:".toList) ++ b) ∧
    pyReplace ("http://a/http:b".toList) ("http:".toList) ("https:".toList)
      = ("https://a/https:b".toList) ∧
    mainModel [("https://a/https:b".toList)] [] [("http://a/http:b".toList)] []
      = ([], 0) := by
  refine ⟨pyReplace_no_http, by decide, by decide⟩

/-- C10: dot segments are dropped during path splitting (and empty segments
from repeated slashes as well): a `.` path segment never appears among the
parsed path parts, and the concrete input with a `./` prefix canonicalizes
with the dot segment removed. -/
theorem c10_dot_segments :
    sanitize_url ("https://example.org/./shaarli/feed".toList)
      = ("https://example.org/shaarli?do=rss".toList) ∧
    ∀ p : PyStr, ¬ ['.'] ∈ pyPathParts p ∧ ¬ ([] : PyStr) ∈ pyPathParts p := by
  refine ⟨by decide, ?_⟩
  intro p
  constructor <;> intro hm <;>
    rcases List.mem_append.mp hm with h | h
  · rcases pathRoot_cases p with hr | hr | hr <;> rw [hr] at h <;> simp_all
  · have := (List.mem_filter.mp h).2
    simp [isNormalSeg] at this
  · rcases pathRoot_cases p with hr | hr | hr <;> rw [hr] at h <;> simp_all
  · have := (List.mem_filter.mp h).2
    simp [isNormalSeg] at this
